import Mathlib

/-!
# Verification of the claims about `src/scanner.py` (index-of-scanner)

This file gives a shallow embedding of the crawl-scheduling and
normalization core of `scanner.py` and proves/refutes the frozen claims
about it.

Modelling conventions:

* Strings are processed as `List Char`; top-level entry points wrap
  `String`.  Python's `str.lower`/`str.strip` are modelled on ASCII
  (inputs are URLs; all concrete cases in this file are ASCII).
* `urllib.parse` functions (`urlparse`, `urlunparse`, `parse_qs`) are
  translated from the CPython 3.11 sources.  `unquote` decodes each
  `%XX` escape to the character with that code point, which is exact for
  ASCII bytes; CPython additionally reassembles multi-byte UTF-8
  sequences for bytes `>= 0x80` (not needed by any claim here).
  `urlparse`'s scheme detection is specialised to inputs that start with
  `http:` or `https:`, which is guaranteed at every call site because
  `_process_url` first prefixes `http://` when no scheme is present and
  feeds its own output (which starts with the scheme) to `urlparse`
  again in `_detect_sensitive`.  `_checknetloc` and the bracketed-host
  content validation (which only reject exotic netlocs) are not
  modelled; the bracket-balance `ValueError` is.
* The Bloom filter (`ScalableBloomFilter`) is modelled as an exact set,
  i.e. with a false-positive rate of zero, matching the "documented
  false-positive rate" allowance in the claims.
* The asyncio run is modelled as a sequential interleaving: one crawl
  branch is a function from scanner state to scanner state.
  `asyncio.wait_for`'s timeout is modelled by an environment predicate
  saying which awaited child tasks time out; the child's effects are
  retained (a cancelled task keeps the side effects it already
  performed) and the `TimeoutError` is raised in the parent.
* The state carries two ghost trace fields, `fetches` (every HTTP GET
  issued, in order) and `scheduled` (every `(url, depth)` accepted by
  `_schedule_task`), used to state the claims about network calls and
  scheduling; the code's own fields (`dedup_filter`, `stats`,
  `findings`, `_shutdown`) are modelled directly.
-/

namespace IdxScan

/-! ## ASCII character helpers (models of `str.lower`, `str.strip`) -/

/-- the six ASCII whitespace characters recognised by `str.strip()` -/
def isPyWs (c : Char) : Bool :=
  c = ' ' ∨ c = '\t' ∨ c = '\n' ∨ c = '\r' ∨ c = Char.ofNat 11 ∨ c = Char.ofNat 12

/-- ASCII `str.lower` on one character -/
def asciiLowerChar (c : Char) : Char :=
  if 'A' ≤ c ∧ c ≤ 'Z' then Char.ofNat (c.toNat + 32) else c

/-- ASCII `str.lower` -/
def asciiLower (s : List Char) : List Char := s.map asciiLowerChar

/-- `str.strip()` (ASCII whitespace) -/
def pyStrip (s : List Char) : List Char :=
  ((s.dropWhile isPyWs).reverse.dropWhile isPyWs).reverse

/-! ## Generic list splitting helpers shared by the `urllib.parse` model -/

/-- `s.split(c)`: split at every occurrence of `c`.
    `splitAll c [] = [[]]`, matching `"".split(c) == ['']`. -/
def splitAll (c : Char) : List Char → List (List Char)
  | [] => [[]]
  | x :: xs =>
    match splitAll c xs with
    | [] => [[]]
    | h :: t => if x = c then [] :: h :: t else (x :: h) :: t

/-- `s.split(c, 1)` when `c` occurs, else `(s, [])`; models the
    `if c in s: a, b = s.split(c, 1)` idiom. -/
def splitFirstD (c : Char) : List Char → List Char × List Char
  | [] => ([], [])
  | x :: r =>
    if x = c then ([], r)
    else
      match splitFirstD c r with
      | (a, b) => (x :: a, b)

/-- `s.split(c, 1)` as an `Option`: `none` when `c` does not occur. -/
def splitFirst? (c : Char) (s : List Char) : Option (List Char × List Char) :=
  if c ∈ s then some (splitFirstD c s) else none

/-- position of the first occurrence of `c` at index `≥ start`
    (`str.find(c, start)`) -/
def findFrom? (c : Char) (s : List Char) (start : Nat) : Option Nat :=
  ((s.drop start).findIdx? (· = c)).map (· + start)

/-- position of the last occurrence of `c` (`str.rfind(c)`) -/
def rfind? (c : Char) (s : List Char) : Option Nat :=
  (s.reverse.findIdx? (· = c)).map (fun j => s.length - 1 - j)

/-- substring containment (`needle in hay` / the literal-alternation
    regex searches of `_detect_sensitive`) -/
def isSubl (needle : List Char) : List Char → Bool
  | [] => needle.isEmpty
  | c :: r => needle.isPrefixOf (c :: r) || isSubl needle r

/-! ## Model of `urllib.parse.urlparse` / `urlunparse` (CPython 3.11) -/

structure PyUrl where
  scheme : List Char
  netloc : List Char
  path : List Char
  params : List Char
  query : List Char
  fragment : List Char
deriving DecidableEq

/-- the delimiters ending the netloc in `_splitnetloc` -/
def isNetStop (c : Char) : Bool := c = '/' ∨ c = '?' ∨ c = '#'

/-- `_splitparams`: split `;params` off the path (only called when `;`
    occurs in the path) -/
def splitParamsCore (u : List Char) : List Char × List Char :=
  let i? :=
    if '/' ∈ u then
      match rfind? '/' u with
      | some j => findFrom? ';' u j
      | none => findFrom? ';' u 0
    else findFrom? ';' u 0
  match i? with
  | none => (u, [])
  | some i => (u.take i, u.drop (i + 1))

/-- `urlparse`'s params handling: `if ';' in path: _splitparams` -/
def splitParams (u : List Char) : List Char × List Char :=
  if ';' ∈ u then splitParamsCore u else (u, [])

/-- the WHATWG C0-control-or-space prefix strip done by `urlsplit` -/
def isC0OrSpace (c : Char) : Bool := c.toNat ≤ 32

/-- the unsafe bytes removed by `urlsplit` anywhere in the URL -/
def isUnsafeUrlByte (c : Char) : Bool := c = '\t' ∨ c = '\r' ∨ c = '\n'

/-- `urlparse` for URLs whose (sanitised) text starts with `http:` or
    `https:` — the only shape reaching it in `scanner.py`, because
    `_process_url` prefixes `http://` beforehand and `_detect_sensitive`
    reparses `_process_url`'s output.  Inputs of any other shape take the
    scheme-less fallback. -/
def pyUrlparse (s0 : List Char) : PyUrl :=
  let s1 := s0.dropWhile isC0OrSpace
  let s := s1.filter (fun c => ¬ isUnsafeUrlByte c)
  let (scheme, rest) :=
    if ("https:".toList).isPrefixOf s then ("https".toList, s.drop 6)
    else if ("http:".toList).isPrefixOf s then ("http".toList, s.drop 5)
    else ([], s)
  let (netloc, rest2) :=
    if ['/', '/'].isPrefixOf rest then
      ((rest.drop 2).takeWhile (fun c => ¬ isNetStop c),
       (rest.drop 2).dropWhile (fun c => ¬ isNetStop c))
    else ([], rest)
  let (beforeHash, fragment) := splitFirstD '#' rest2
  let (pathparams, query) := splitFirstD '?' beforeHash
  let (path, params) := splitParams pathparams
  ⟨scheme, netloc, path, params, query, fragment⟩

/-- the `Invalid IPv6 URL` check of `urlsplit`: exactly one of `[`, `]`
    occurs in the netloc -/
def badBrackets (netloc : List Char) : Bool :=
  (('[' ∈ netloc) ∧ ¬ (']' ∈ netloc)) ∨ ((']' ∈ netloc) ∧ ¬ ('[' ∈ netloc))

/-! ### `_check_bracketed_host` (via `ipaddress`) -/

/-- hexadecimal digit (for IPv6 hextets and IPvFuture) -/
def isHexDig (c : Char) : Bool :=
  ('0' ≤ c ∧ c ≤ '9') ∨ ('a' ≤ c ∧ c ≤ 'f') ∨ ('A' ≤ c ∧ c ≤ 'F')

/-- one IPv6 hextet (`IPv6Address._parse_hextet`) -/
def ipv6Hextet (s : List Char) : Bool :=
  s ≠ [] ∧ s.length ≤ 4 ∧ s.all isHexDig

/-- one dotted-decimal octet (`IPv4Address._parse_octet`): ASCII digits,
    at most three, value `≤ 255`, no leading zero -/
def ipv4Octet (s : List Char) : Bool :=
  s ≠ [] ∧ s.length ≤ 3 ∧ s.all (·.isDigit) ∧
    (s.length = 1 ∨ s.headD ' ' ≠ '0') ∧
    s.foldl (fun acc c => acc * 10 + (c.toNat - 48)) 0 ≤ 255

/-- a valid IPv4 address string -/
def validIpv4 (s : List Char) : Bool :=
  (splitAll '.' s).length = 4 ∧ (splitAll '.' s).all ipv4Octet

/-- a valid IPv6 address body, scope already removed
    (`IPv6Address._ip_int_from_string`) -/
def validIpv6Core (s : List Char) : Bool :=
  decide (s ≠ []) &&
  (let parts0 := splitAll ':' s
   decide (parts0.length ≥ 3) &&
   (let last := parts0.getLastD []
    let v4 : Bool := '.' ∈ last
    (!v4 || validIpv4 last) &&
    (let parts := if v4 then parts0.dropLast ++ [['0'], ['0']] else parts0
     let n := parts.length
     decide (n ≤ 9) &&
     (let emptiesIn := (List.range n).filter
        (fun i => decide (0 < i) && decide (i < n - 1) && decide (parts.getD i [' '] = []))
      match emptiesIn with
      | [] => decide (n = 8) && parts.all ipv6Hextet
      | [idx] =>
        let hi := if parts.getD 0 [' '] = [] then 0 else idx
        let lo := if parts.getD (n - 1) [' '] = [] then 0 else n - idx - 1
        (!(decide (parts.getD 0 [' '] = [])) || decide (idx = 1)) &&
        (!(decide (parts.getD (n - 1) [' '] = [])) || decide (idx = n - 2)) &&
        decide (hi + lo ≤ 7) &&
        (parts.take hi).all ipv6Hextet && (parts.drop (n - lo)).all ipv6Hextet
      | _ => false))))

/-- a valid IPv6 address string, optional `%scope` -/
def validIpv6 (s : List Char) : Bool :=
  if '%' ∈ s then
    let addr := (splitFirstD '%' s).1
    let scope := (splitFirstD '%' s).2
    scope ≠ [] ∧ ¬ ('%' ∈ scope) ∧ validIpv6Core addr
  else validIpv6Core s

/-- `_check_bracketed_host`: IPvFuture (`v<hex>+.<rest>`), else a valid
    IPv6 address (a valid IPv4 address is rejected) -/
def validBracketedHost (h : List Char) : Bool :=
  if h.headD ' ' = 'v' then
    let after := h.drop 1
    let hx := after.takeWhile isHexDig
    let rest := after.drop hx.length
    hx ≠ [] ∧ rest.headD ' ' = '.' ∧ rest.length ≥ 2
  else ¬ validIpv4 h ∧ validIpv6 h

/-- the bracketed netloc validation of `urlsplit`: the host between the
    first `[` and the following `]` must be a bracketed host -/
def bracketedHostOk (netloc : List Char) : Bool :=
  if '[' ∈ netloc ∧ ']' ∈ netloc then
    validBracketedHost (splitFirstD ']' (splitFirstD '[' netloc).2).1
  else true

/-- schemes in `uses_netloc` that can occur here -/
def usesNetloc : List (List Char) := ["http".toList, "https".toList]

/-- `urlunparse` (via `urlunsplit`) -/
def pyUrlunparse (P : PyUrl) : List Char :=
  let u := if P.params ≠ [] then P.path ++ ';' :: P.params else P.path
  let u :=
    if P.netloc ≠ [] ∨ (P.scheme ≠ [] ∧ P.scheme ∈ usesNetloc ∧ u.take 2 ≠ ['/', '/']) then
      let u' := if u ≠ [] ∧ u.take 1 ≠ ['/'] then '/' :: u else u
      '/' :: '/' :: (P.netloc ++ u')
    else u
  let u := if P.scheme ≠ [] then P.scheme ++ ':' :: u else u
  let u := if P.query ≠ [] then u ++ '?' :: P.query else u
  if P.fragment ≠ [] then u ++ '#' :: P.fragment else u

/-! ## Model of `SplitResult.port` -/

/-- `str.partition(c)`: the part after the first occurrence of `c`
    (empty when `c` is absent) -/
def afterFirstD (c : Char) (s : List Char) : List Char :=
  if c ∈ s then (splitFirstD c s).2 else []

/-- `str.rpartition(c)`: the part after the last occurrence of `c`
    (the whole string when `c` is absent, matching how `_hostinfo` uses it) -/
def afterLastD (c : Char) (s : List Char) : List Char :=
  if c ∈ s then (splitFirstD c s.reverse).1.reverse ++ [] else s

/-- the port substring of a netloc (`SplitResult._hostinfo`) -/
def pyHostPortStr (netloc : List Char) : List Char :=
  let hostinfo := afterLastD '@' netloc
  if '[' ∈ hostinfo then
    let bracketed := afterFirstD '[' hostinfo
    let afterKet := (splitFirstD ']' bracketed).2
    afterFirstD ':' afterKet
  else afterFirstD ':' hostinfo

/-- digits of an all-ASCII-digit string (`port.isdigit() and
    port.isascii()` then `int(port)`) -/
def digitsVal? (s : List Char) : Option Nat :=
  if s ≠ [] ∧ s.all (·.isDigit) then
    some (s.foldl (fun acc c => acc * 10 + (c.toNat - 48)) 0)
  else none

/-- `SplitResult.port`: `none` for an absent/empty port, error for a
    non-digit or out-of-range port -/
def pyPort (netloc : List Char) : Except Unit (Option Nat) :=
  let ps := pyHostPortStr netloc
  if ps = [] then .ok none
  else
    match digitsVal? ps with
    | none => .error ()
    | some v => if v ≤ 65535 then .ok (some v) else .error ()

/-! ## Model of `parse_qs` and the query cleaning in `_process_url` -/

/-- hexadecimal digit value -/
def hexVal? (c : Char) : Option Nat :=
  if '0' ≤ c ∧ c ≤ '9' then some (c.toNat - 48)
  else if 'a' ≤ c ∧ c ≤ 'f' then some (c.toNat - 87)
  else if 'A' ≤ c ∧ c ≤ 'F' then some (c.toNat - 55)
  else none

/-- `urllib.parse.unquote`: decode `%XX` escapes (byte as code point;
    exact for ASCII), keeping invalid escapes verbatim -/
def pyUnquote : List Char → List Char
  | [] => []
  | c :: [] => if c = '%' then ['%'] else [c]
  | c :: a :: [] =>
    if c = '%' then '%' :: pyUnquote [a] else c :: pyUnquote [a]
  | c :: a :: b :: r2 =>
    if c = '%' then
      match hexVal? a, hexVal? b with
      | some x, some y => Char.ofNat (16 * x + y) :: pyUnquote r2
      | _, _ => '%' :: pyUnquote (a :: b :: r2)
    else c :: pyUnquote (a :: b :: r2)

/-- the `'+' -> ' '` replacement done by `parse_qsl` -/
def plusToSpace (s : List Char) : List Char :=
  s.map (fun c => if c = '+' then ' ' else c)

/-- key/value decoding of `parse_qsl` -/
def decodeQs (s : List Char) : List Char := pyUnquote (plusToSpace s)

/-- `parse_qsl(qs)` with the default arguments used by `scanner.py`:
    skip empty fields, fields without `=` and fields with an empty
    value; decode keys and values -/
def parseQsl (qs : List Char) : List (List Char × List Char) :=
  (splitAll '&' qs).filterMap fun f =>
    if f = [] then none
    else
      match splitFirst? '=' f with
      | none => none
      | some (k, v) => if v = [] then none else some (decodeQs k, decodeQs v)

/-- one dict insertion of `parse_qs`: append the value to an existing
    key's list, else append a new key at the end (insertion order) -/
def qsUpdate (acc : List (List Char × List (List Char))) (k : List Char) (v : List Char) :
    List (List Char × List (List Char)) :=
  if acc.any (fun kv => kv.1 = k) then
    acc.map (fun kv => if kv.1 = k then (kv.1, kv.2 ++ [v]) else kv)
  else acc ++ [(k, [v])]

/-- `parse_qs(qs)` as an insertion-ordered association list -/
def parseQs (qs : List Char) : List (List Char × List (List Char)) :=
  (parseQsl qs).foldl (fun acc kv => qsUpdate acc kv.1 kv.2) []

/-- `'&'.join(...)` -/
def joinAmp : List (List Char) → List Char
  | [] => []
  | [x] => x
  | x :: y :: t => x ++ '&' :: joinAmp (y :: t)

/-- the query cleaning in `_process_url`:
    `'&'.join(f"{k}={v[0]}" for k, v in parse_qs(q).items()
              if not k.startswith('utm_'))` -/
def cleanQueryL (qs : List Char) : List Char :=
  joinAmp
    (((parseQs qs).filter (fun kv => ¬ ("utm_".toList).isPrefixOf kv.1)).map
      (fun kv => kv.1 ++ '=' :: kv.2.headD []))

/-- a query string built from a list of `(key, value)` fields,
    `k1=v1&k2=v2&...` -/
def ampJoinFields (ps : List (List Char × List Char)) : List Char :=
  joinAmp (ps.map (fun kv => kv.1 ++ '=' :: kv.2))

/-- field well-formedness for the C8/C9 round trip: keys carry no
    `&`, `=`, `%`, `+`; values are nonempty and carry no `&`, `%`, `+` -/
def GoodField (kv : List Char × List Char) : Prop :=
  '&' ∉ kv.1 ∧ '=' ∉ kv.1 ∧ '%' ∉ kv.1 ∧ '+' ∉ kv.1 ∧
    kv.2 ≠ [] ∧ '&' ∉ kv.2 ∧ '%' ∉ kv.2 ∧ '+' ∉ kv.2

instance goodFieldDec (kv : List Char × List Char) : Decidable (GoodField kv) := by
  unfold GoodField
  infer_instance

/-- Spec-side comparison definition, following the spec's words "keeps
    first value for keys with repeated values ... preserving original
    key order": the sublist of pairs whose key was not seen before
    (`seen` accumulates the keys already kept). -/
def specFirstOccurrence (seen : List (List Char)) :
    List (List Char × List Char) → List (List Char × List Char)
  | [] => []
  | kv :: t =>
    if kv.1 ∈ seen then specFirstOccurrence seen t
    else kv :: specFirstOccurrence (kv.1 :: seen) t

/-! ## Model of `ScannerCore._process_url` -/

/-- `CONFIG` (the fields the core uses) -/
structure Config where
  maxDepth : Nat
  forbiddenPorts : List Nat
  sensitiveExt : List (List Char)
deriving DecidableEq

def CONFIG : Config where
  maxDepth := 3
  forbiddenPorts := [22, 3306, 3389]
  sensitiveExt :=
    ["config".toList, "ini".toList, "env".toList, "zip".toList, "bak".toList,
     "key".toList, "conf".toList, "properties".toList, "sql".toList, "db".toList,
     "dbf".toList, "pem".toList, "crt".toList, "jks".toList, "p12".toList,
     "audit".toList]

/-- `url = raw_url.strip().lower()`, then prefix `http://` when the
    result does not start with `http://` or `https://` -/
def preprocessL (raw : List Char) : List Char :=
  let u := asciiLower (pyStrip raw)
  if ("http://".toList).isPrefixOf u ∨ ("https://".toList).isPrefixOf u then u
  else "http://".toList ++ u

/-- the `ValueError`s `_process_url` can raise: the explicit
    forbidden-port rejection, and the malformed-URL errors from
    `urlsplit` / `SplitResult.port` -/
inductive NormErr where
  | forbiddenPort
  | malformed
deriving DecidableEq

instance exceptDecEq {ε α : Type} [DecidableEq ε] [DecidableEq α] :
    DecidableEq (Except ε α) := fun a b =>
  match a, b with
  | .error x, .error y =>
    if h : x = y then isTrue (by rw [h]) else isFalse (by simp [h])
  | .ok x, .ok y =>
    if h : x = y then isTrue (by rw [h]) else isFalse (by simp [h])
  | .error _, .ok _ => isFalse (fun h => Except.noConfusion h)
  | .ok _, .error _ => isFalse (fun h => Except.noConfusion h)

/-- `path.rstrip('/')` -/
def rstripSlash (p : List Char) : List Char := (p.reverse.dropWhile (· = '/')).reverse

/-- `ScannerCore._process_url` -/
def processUrlL (raw : List Char) : Except NormErr (List Char) :=
  let u := preprocessL raw
  let P := pyUrlparse u
  if badBrackets P.netloc ∨ ¬ bracketedHostOk P.netloc then .error .malformed
  else
    match pyPort P.netloc with
    | .error _ => .error .malformed
    | .ok op =>
      match op with
      | some p =>
        if p ∈ CONFIG.forbiddenPorts then .error .forbiddenPort
        else .ok (pyUrlunparse
          ⟨P.scheme, P.netloc, rstripSlash P.path,
           P.params, cleanQueryL P.query, P.fragment⟩)
      | none =>
        .ok (pyUrlunparse
          ⟨P.scheme, P.netloc, rstripSlash P.path,
           P.params, cleanQueryL P.query, P.fragment⟩)

/-- `_process_url` on `String` -/
def processUrl (raw : String) : Except NormErr String :=
  (processUrlL raw.data).map String.mk

/-! ## Model of `ScannerCore._detect_sensitive` -/

/-- `ScannerCore._detect_sensitive` on the parsed path of `url`.
    The two configured regexes are pure literal alternations, so
    `pattern.search(path)` is substring containment; the reported reason
    strings are the `f"..."` literals of the source. -/
def detectSensitiveL (url : List Char) : Bool × Option (List Char) :=
  let P := pyUrlparse url
  let path := asciiLower P.path
  let parts := splitAll '.' path
  let ext := parts.getLastD []
  if ext ∈ CONFIG.sensitiveExt then
    (true, some ("敏感扩展名: ".toList ++ ext))
  else if isSubl "/backup/".toList path || isSubl "/archive/".toList path then
    (true, some ("路径匹配: /(backup|archive)/".toList))
  else if isSubl ".git/".toList path || isSubl ".svn/".toList path then
    (true, some ("路径匹配: \\.(git|svn)/".toList))
  else
    let n := parts.length
    if n > 2 ∧ (parts.getD (n - 2) [] ∈ CONFIG.sensitiveExt ∨
                parts.getD (n - 1) [] ∈ CONFIG.sensitiveExt) then
      (true, some ("复合压缩文件: ".toList ++ parts.getD (n - 2) [] ++ '+' :: parts.getD (n - 1) []))
    else (false, none)

/-- `_detect_sensitive` on `String` -/
def detectSensitive (url : String) : Bool × Option String :=
  match detectSensitiveL url.data with
  | (b, none) => (b, none)
  | (b, some r) => (b, some (String.mk r))

/-! ## Model of the crawl scheduler (`scan`, `_schedule_task`, `run`)

One crawl branch is modelled as a state-to-state function.  The
environment supplies the external collaborators: the HTTP transport
(`fetch`, `none` = transport failure raising in `session.get` /
`resp.text`), the link resolution `urljoin` (`resolve`), and which
awaited child tasks hit the `asyncio.wait_for` timeout
(`childTimeout`). -/

/-- a finding appended to `findings["SENSITIVE_FILES"]` -/
structure Finding where
  url : String
  reason : Option String
deriving DecidableEq

/-- an HTTP response: the `Content-Type` header and the anchor hrefs
    BeautifulSoup extracts from the body, in document order -/
structure FetchResp where
  contentType : String
  links : List String

/-- external collaborators -/
structure Env where
  fetch : String → Option FetchResp
  resolve : String → String → String
  childTimeout : String → Bool

/-- scanner state.  `dedup` is the Bloom filter modelled as an exact
    set; `fetches` and `scheduled` are ghost traces of the HTTP GETs
    issued and of the `(url, depth)` tasks accepted by
    `_schedule_task`. -/
structure ScanState where
  shutdown : Bool
  dedup : List String
  successRequests : Nat
  failedRequests : Nat
  findings : List Finding
  fetches : List String
  scheduled : List (String × Nat)

/-- `ScannerCore._schedule_task`, parametric in the child runner
    (`scan` at the remaining fuel).  Returns the state and whether the
    `await asyncio.wait_for(task, ...)` raised `TimeoutError` in the
    caller.  On acceptance the dedup entry is added before the child
    task is created. -/
def scheduleTask (scanF : String → Nat → ScanState → ScanState)
    (timeoutF : String → Bool) (url : String) (depth : Nat) (s : ScanState) :
    ScanState × Bool :=
  if ¬ s.shutdown ∧ depth ≤ CONFIG.maxDepth ∧ ¬ s.dedup.contains url then
    (scanF url depth
      { s with dedup := url :: s.dedup, scheduled := s.scheduled ++ [(url, depth)] },
     timeoutF url)
  else (s, false)

/-- the `for tag in soup.select('a[href]')` loop of `scan`: resolve each
    href against the fetched URL and `await self._schedule_task(...)`;
    a `TimeoutError` raised by an awaited child aborts the loop and
    propagates (second component `true`). -/
def linkLoop (scanF : String → Nat → ScanState → ScanState)
    (timeoutF : String → Bool) (resolveF : String → String → String)
    (base : String) (depth : Nat) : List String → ScanState → ScanState × Bool
  | [], s => (s, false)
  | href :: rest, s =>
    match scheduleTask scanF timeoutF (resolveF base href) (depth + 1) s with
    | (s', true) => (s', true)
    | (s', false) => linkLoop scanF timeoutF resolveF base depth rest s'

/-- the body of `ScannerCore.scan`, parametric in the recursive call.
    The `try`/`except Exception` block catches the normalization
    `ValueError`s, transport failures and child `TimeoutError`s, and
    each of them only increments `stats['failed_requests']`. -/
def scanStep (env : Env) (scanF : String → Nat → ScanState → ScanState)
    (url : String) (depth : Nat) (s : ScanState) : ScanState :=
  if s.shutdown ∨ depth > CONFIG.maxDepth then s
  else
    match processUrl url with
    | .error _ => { s with failedRequests := s.failedRequests + 1 }
    | .ok p =>
      if p = "" then s
      else
        match detectSensitive p with
        | (true, reason) => { s with findings := s.findings ++ [⟨p, reason⟩] }
        | (false, _) =>
          match env.fetch p with
          | none =>
            { s with fetches := s.fetches ++ [p],
                     failedRequests := s.failedRequests + 1 }
          | some resp =>
            if depth = 0 ∧ isSubl "text/html".toList resp.contentType.data then
              match linkLoop scanF env.childTimeout env.resolve p depth resp.links
                  { s with fetches := s.fetches ++ [p],
                           successRequests := s.successRequests + 1 } with
              | (s3, false) => s3
              | (s3, true) => { s3 with failedRequests := s3.failedRequests + 1 }
            else
              { s with fetches := s.fetches ++ [p],
                       successRequests := s.successRequests + 1 }

/-- `ScannerCore.scan`.  The fuel argument is a termination artifact
    only: recursion depth is bounded by `CONFIG.maxDepth`, so any fuel
    `> CONFIG.maxDepth + 1` computes the code's behaviour; all theorems
    hold for every fuel. -/
def scan (env : Env) : Nat → String → Nat → ScanState → ScanState
  | 0, _, _, s => s
  | fuel + 1, url, depth, s => scanStep env (scan env fuel) url depth s

/-- a direct call of `_schedule_task` with `scan` as child runner -/
def scheduleTaskRun (env : Env) (fuel : Nat) (url : String) (depth : Nat)
    (s : ScanState) : ScanState × Bool :=
  scheduleTask (scan env fuel) env.childTimeout url depth s

/-- the seed-set deduplication of `run`:
    `{t.strip() for t in targets if t.strip()}`, modelled in
    first-occurrence order (CPython set iteration order is
    unspecified) -/
def uniqueSeeds : List String → List String → List String
  | _, [] => []
  | seen, t :: r =>
    if seen.contains t then uniqueSeeds seen r
    else t :: uniqueSeeds (t :: seen) r

/-- `ScannerCore.run`: gather of `scan(url)` over the stripped,
    non-blank, deduplicated seed set, modelled sequentially -/
def runTargets (env : Env) (fuel : Nat) (targets : List String) (s : ScanState) :
    ScanState :=
  (uniqueSeeds []
      (((targets.map (fun t => String.mk (pyStrip t.data))).filter (fun t => t ≠ "")))).foldl
    (fun st t => scan env fuel t 0 st) s

/-! ## Concrete data for witnesses and counterexamples -/

/-- a transport answering every GET with a non-HTML 200 -/
def envPlain : Env where
  fetch := fun _ => some ⟨"text/plain", []⟩
  resolve := fun b _ => b
  childTimeout := fun _ => false

/-- a transport that fails every GET -/
def envDown : Env where
  fetch := fun _ => none
  resolve := fun b _ => b
  childTimeout := fun _ => false

/-- a transport answering HTML with one link whose resolution is a
    sensitive URL, with every awaited child task timing out -/
def envTimeout : Env where
  fetch := fun _ => some ⟨"text/html", ["/a.env"]⟩
  resolve := fun _ _ => "http://h/a.env"
  childTimeout := fun _ => true

/-- the state at the start of a run -/
def initState : ScanState := ⟨false, [], 0, 0, [], [], []⟩

/-- `initState` with the shutdown flag already set -/
def downState : ScanState := ⟨true, [], 0, 0, [], [], []⟩

/-- `c :: l`, or nothing when `l` is empty (the way `urlunsplit` appends
    `?query` and `#fragment`) -/
def optPart (c : Char) (l : List Char) : List Char := if l = [] then [] else c :: l

/-- `sch://X` -/
def preUrl (sch X : List Char) : List Char := sch ++ ':' :: '/' :: '/' :: X

/-- the fully assembled URL `sch://netloc path ?query #fragment` -/
def buildUrl (sch netloc path query frag : List Char) : List Char :=
  preUrl sch (netloc ++ (path ++ (optPart '?' query ++ optPart '#' frag)))

/-- what a crawl branch may do to the shared state: the shutdown flag
    is read-only, dedup entries are never removed, findings and the
    ghost traces only grow at the end, counters only increase -/
def Extends (s t : ScanState) : Prop :=
  t.shutdown = s.shutdown ∧
  s.dedup ⊆ t.dedup ∧
  s.findings <+: t.findings ∧
  s.fetches <+: t.fetches ∧
  s.scheduled <+: t.scheduled ∧
  s.successRequests ≤ t.successRequests ∧
  s.failedRequests ≤ t.failedRequests

/-! # Theorems -/

/-! ## Unfolding and monotonicity lemmas -/

theorem scan_succ (env : Env) (fuel : Nat) (url : String) (depth : Nat) (s : ScanState) :
    scan env (fuel + 1) url depth s = scanStep env (scan env fuel) url depth s := rfl

theorem scan_zero (env : Env) (url : String) (depth : Nat) (s : ScanState) :
    scan env 0 url depth s = s := rfl

theorem extends_refl (s : ScanState) : Extends s s :=
  ⟨rfl, fun _ h => h, List.prefix_rfl, List.prefix_rfl, List.prefix_rfl,
   Nat.le_refl _, Nat.le_refl _⟩

theorem extends_trans {s t u : ScanState} (h1 : Extends s t) (h2 : Extends t u) :
    Extends s u := by
  obtain ⟨a1, b1, c1, d1, e1, f1, g1⟩ := h1
  obtain ⟨a2, b2, c2, d2, e2, f2, g2⟩ := h2
  exact ⟨a2.trans a1, fun x hx => b2 (b1 hx), c1.trans c2, d1.trans d2,
    e1.trans e2, f1.trans f2, g1.trans g2⟩

theorem extends_addFail (s : ScanState) :
    Extends s { s with failedRequests := s.failedRequests + 1 } :=
  ⟨rfl, fun _ h => h, List.prefix_rfl, List.prefix_rfl, List.prefix_rfl,
   Nat.le_refl _, Nat.le_succ _⟩

theorem extends_addFinding (s : ScanState) (f : Finding) :
    Extends s { s with findings := s.findings ++ [f] } :=
  ⟨rfl, fun _ h => h, List.prefix_append _ _, List.prefix_rfl, List.prefix_rfl,
   Nat.le_refl _, Nat.le_refl _⟩

theorem extends_addFetch (s : ScanState) (p : String) :
    Extends s { s with fetches := s.fetches ++ [p] } :=
  ⟨rfl, fun _ h => h, List.prefix_rfl, List.prefix_append _ _, List.prefix_rfl,
   Nat.le_refl _, Nat.le_refl _⟩

theorem extends_addSuccess (s : ScanState) :
    Extends s { s with successRequests := s.successRequests + 1 } :=
  ⟨rfl, fun _ h => h, List.prefix_rfl, List.prefix_rfl, List.prefix_rfl,
   Nat.le_succ _, Nat.le_refl _⟩

theorem extends_fetchFail (s : ScanState) (p : String) :
    Extends s { s with fetches := s.fetches ++ [p],
                       failedRequests := s.failedRequests + 1 } :=
  ⟨rfl, fun _ h => h, List.prefix_rfl, List.prefix_append _ _, List.prefix_rfl,
   Nat.le_refl _, Nat.le_succ _⟩

theorem extends_fetchSuccess (s : ScanState) (p : String) :
    Extends s { s with fetches := s.fetches ++ [p],
                       successRequests := s.successRequests + 1 } :=
  ⟨rfl, fun _ h => h, List.prefix_rfl, List.prefix_append _ _, List.prefix_rfl,
   Nat.le_succ _, Nat.le_refl _⟩

theorem extends_accept (s : ScanState) (url : String) (depth : Nat) :
    Extends s { s with dedup := url :: s.dedup,
                       scheduled := s.scheduled ++ [(url, depth)] } :=
  ⟨rfl, fun _ h => List.mem_cons_of_mem _ h, List.prefix_rfl, List.prefix_rfl,
   List.prefix_append _ _, Nat.le_refl _, Nat.le_refl _⟩

theorem scheduleTask_extends (scanF : String → Nat → ScanState → ScanState)
    (timeoutF : String → Bool) (url : String) (depth : Nat) (s : ScanState)
    (hF : ∀ u d st, Extends st (scanF u d st)) :
    Extends s (scheduleTask scanF timeoutF url depth s).1 := by
  unfold scheduleTask
  split
  · exact extends_trans (extends_accept s url depth) (hF _ _ _)
  · exact extends_refl s

theorem linkLoop_extends (scanF : String → Nat → ScanState → ScanState)
    (timeoutF : String → Bool) (resolveF : String → String → String)
    (base : String) (depth : Nat) (links : List String) (s : ScanState)
    (hF : ∀ u d st, Extends st (scanF u d st)) :
    Extends s (linkLoop scanF timeoutF resolveF base depth links s).1 := by
  induction links generalizing s with
  | nil => exact extends_refl s
  | cons href rest ih =>
    show Extends s (match scheduleTask scanF timeoutF (resolveF base href) (depth + 1) s with
      | (s', true) => (s', true)
      | (s', false) => linkLoop scanF timeoutF resolveF base depth rest s').1
    have h1 := scheduleTask_extends scanF timeoutF (resolveF base href) (depth + 1) s hF
    rcases hsch : scheduleTask scanF timeoutF (resolveF base href) (depth + 1) s with ⟨s', b⟩
    rw [hsch] at h1
    cases b with
    | true => exact h1
    | false => exact extends_trans h1 (ih s')

theorem scanStep_extends (env : Env) (scanF : String → Nat → ScanState → ScanState)
    (url : String) (depth : Nat) (s : ScanState)
    (hF : ∀ u d st, Extends st (scanF u d st)) :
    Extends s (scanStep env scanF url depth s) := by
  unfold scanStep
  split
  · exact extends_refl s
  · rcases hproc : processUrl url with e | p
    · simp only [hproc]
      exact extends_addFail s
    · simp only [hproc]
      by_cases hpe : p = ""
      · rw [if_pos hpe]
        exact extends_refl s
      · rw [if_neg hpe]
        rcases hdet : detectSensitive p with ⟨b, reason⟩
        cases b
        · simp only [hdet]
          rcases hfetch : env.fetch p with _ | resp
          · simp only [hfetch]
            exact extends_fetchFail s p
          · simp only [hfetch]
            by_cases hh : depth = 0 ∧ isSubl "text/html".toList resp.contentType.data = true
            · rw [if_pos hh]
              have h3 := linkLoop_extends scanF env.childTimeout env.resolve p depth
                resp.links
                { s with fetches := s.fetches ++ [p],
                         successRequests := s.successRequests + 1 } hF
              rcases hll : linkLoop scanF env.childTimeout env.resolve p depth resp.links
                  { s with fetches := s.fetches ++ [p],
                           successRequests := s.successRequests + 1 } with ⟨s3, tb⟩
              rw [hll] at h3
              cases tb
              · simp only [hll]
                exact extends_trans (extends_fetchSuccess s p) h3
              · simp only [hll]
                exact extends_trans (extends_fetchSuccess s p)
                  (extends_trans h3 (extends_addFail _))
            · rw [if_neg hh]
              exact extends_fetchSuccess s p
        · simp only [hdet]
          exact extends_addFinding s _

theorem scan_extends (env : Env) (fuel : Nat) (url : String) (depth : Nat)
    (s : ScanState) : Extends s (scan env fuel url depth s) := by
  induction fuel generalizing url depth s with
  | zero => exact extends_refl s
  | succ fuel ih =>
    rw [scan_succ]
    exact scanStep_extends env (scan env fuel) url depth s (fun u d st => ih u d st)

/-! ## C2 -/

/-- C2: for every URL whose classification is Sensitive, the scan branch
    records exactly one Finding (carrying the classification reason) and
    terminates without issuing any HTTP fetch for that URL: the resulting
    state is the input state with exactly that one Finding appended, and
    in particular the fetch trace, counters and dedup set are
    unchanged. -/
theorem c2_sensitive_no_fetch (env : Env) (fuel : Nat) (url : String) (depth : Nat)
    (s : ScanState) (p : String) (reason : Option String)
    (hsd : s.shutdown = false) (hd : depth ≤ CONFIG.maxDepth)
    (hp : processUrl url = .ok p) (hne : p ≠ "")
    (hsen : detectSensitive p = (true, reason)) :
    scan env (fuel + 1) url depth s =
      { s with findings := s.findings ++ [⟨p, reason⟩] } := by
  rw [scan_succ]
  unfold scanStep
  have hcond : ¬ (s.shutdown = true ∨ depth > CONFIG.maxDepth) := by
    rintro (h | h)
    · rw [hsd] at h
      exact Bool.false_ne_true h
    · omega
  rw [if_neg hcond]
  simp only [hp]
  rw [if_neg hne]
  simp only [hsen]

/-- witness for C2 at a concrete sensitive URL -/
theorem c2_witness :
    scan envPlain 1 "http://h/a.env" 0 initState =
      { initState with
        findings := initState.findings ++ [⟨"http://h/a.env", some "敏感扩展名: env"⟩] } :=
  c2_sensitive_no_fetch envPlain 0 "http://h/a.env" 0 initState "http://h/a.env"
    (some "敏感扩展名: env") rfl (by decide) (by decide) (by decide) (by decide)

/-! ## C3 -/

/-- C3: for every URL whose parsed port is in the forbidden-port set
    {22, 3306, 3389}, normalization fails with the ForbiddenPort policy
    rejection, and no network call is ever issued for that URL by `scan`
    (at any depth, fuel, environment or state): the fetch trace never
    grows. -/
theorem c3_forbidden_port (raw : String) (p : Nat)
    (hbr : badBrackets (pyUrlparse (preprocessL raw.data)).netloc = false)
    (hbo : bracketedHostOk (pyUrlparse (preprocessL raw.data)).netloc = true)
    (hport : pyPort (pyUrlparse (preprocessL raw.data)).netloc = .ok (some p))
    (hmem : p ∈ CONFIG.forbiddenPorts) :
    processUrl raw = .error .forbiddenPort ∧
      ∀ (env : Env) (fuel depth : Nat) (s : ScanState),
        (scan env fuel raw depth s).fetches = s.fetches := by
  have hmain : processUrl raw = .error .forbiddenPort := by
    simp only [processUrl, processUrlL]
    rw [if_neg (by simp [hbr, hbo])]
    simp only [hport]
    rw [if_pos hmem]
    rfl
  refine ⟨hmain, ?_⟩
  intro env fuel depth s
  cases fuel with
  | zero => rfl
  | succ fuel =>
    rw [scan_succ]
    unfold scanStep
    split
    · rfl
    · simp only [hmain]

/-- witness for C3 at a concrete port-22 URL -/
theorem c3_witness :
    processUrl "http://h:22/x" = .error .forbiddenPort ∧
      (scan envPlain 5 "http://h:22/x" 0 initState).fetches = initState.fetches :=
  ⟨(c3_forbidden_port "http://h:22/x" 22 (by decide) (by decide) (by decide)
      (by decide)).1,
   (c3_forbidden_port "http://h:22/x" 22 (by decide) (by decide) (by decide)
      (by decide)).2 envPlain 5 0 initState⟩

/-! ## C5 -/

/-- C5: whenever the shutdown flag is set, or a task's depth exceeds
    `max_depth`, both scheduling entry points terminate immediately with
    no side effects: `scan` returns the state unchanged and
    `_schedule_task` returns it unchanged without raising, so no fetch,
    no dedup insertion, no counter or finding change, and zero newly
    scheduled branches. -/
theorem c5_policy_noop (env : Env) (fuel : Nat) (url : String) (depth : Nat)
    (s : ScanState) (h : s.shutdown = true ∨ CONFIG.maxDepth < depth) :
    scan env fuel url depth s = s ∧
      scheduleTaskRun env fuel url depth s = (s, false) := by
  constructor
  · cases fuel with
    | zero => rfl
    | succ fuel =>
      rw [scan_succ]
      unfold scanStep
      rw [if_pos h]
  · unfold scheduleTaskRun scheduleTask
    rw [if_neg]
    rintro ⟨hns, hd, -⟩
    rcases h with h | h
    · exact hns h
    · omega

/-- witness for C5: the shutdown flag is set -/
theorem c5_witness :
    scan envPlain 5 "http://h/x" 0 downState = downState ∧
      scheduleTaskRun envPlain 5 "http://h/x" 0 downState = (downState, false) :=
  c5_policy_noop envPlain 5 "http://h/x" 0 downState (Or.inl rfl)

/-! ## C4 -/

/-- C4 counterexample: on path `backup.sql.zip` the classifier fires on
    the *extension* check (reason citing `zip`), not on the
    compound/double-extension check: the checks run in order with first
    match winning, and `zip` is itself a sensitive extension, so the
    compound branch citing `sql+zip` is never reached. -/
theorem c4_counterexample :
    detectSensitive "http://h/backup.sql.zip" = (true, some "敏感扩展名: zip") ∧
      ("敏感扩展名: zip" : String) ≠ "复合压缩文件: sql+zip" :=
  ⟨by decide, by decide⟩

/-- C4 amended: for path `backup.sql.zip` classification returns
    Sensitive via the extension check with reason citing `zip` (first
    match wins); the compound/double-extension check with a reason
    citing the last-two-segment pairing fires only when the final
    segment is not itself a sensitive extension, e.g. `backup.sql.txt`
    yields the compound reason citing `sql+txt`. -/
theorem c4_amended_classification :
    detectSensitive "http://h/backup.sql.zip" = (true, some "敏感扩展名: zip") ∧
      detectSensitive "http://h/backup.sql.txt" =
        (true, some "复合压缩文件: sql+txt") :=
  ⟨by decide, by decide⟩

/-! ## C9 counterexample -/

/-- C9 counterexample: normalization is not idempotent.  `parse_qs`
    percent-decodes query values and `_process_url` reassembles them
    without re-encoding, so `?a=%41` normalizes to `?a=A`, which the
    second pass lowercases to `?a=a`. -/
theorem c9_counterexample :
    processUrl "http://h/p?a=%41" = .ok "http://h/p?a=A" ∧
      processUrl "http://h/p?a=A" = .ok "http://h/p?a=a" ∧
      ("http://h/p?a=a" : String) ≠ "http://h/p?a=A" :=
  ⟨by decide, by decide, by decide⟩

/-! ## C10 -/

/-- C10 counterexample: `path.rstrip('/')` strips *all* trailing
    slashes, not exactly one: `/a//` normalizes to path `/a`, while the
    claim demands `/a/`. -/
theorem c10_counterexample :
    processUrl "http://h/a//" = .ok "http://h/a" ∧
      ("http://h/a" : String) ≠ "http://h/a/" :=
  ⟨by decide, by decide⟩

theorem head?_dropWhile_ne (q : Char → Bool) (l : List Char) :
    ∀ c, (l.dropWhile q).head? = some c → q c = false := by
  induction l with
  | nil => intro c h; cases h
  | cons x xs ih =>
    intro c h
    by_cases hq : q x = true
    · rw [List.dropWhile_cons_of_pos hq] at h
      exact ih c h
    · rw [List.dropWhile_cons_of_neg hq] at h
      cases h
      exact Bool.not_eq_true _ |>.mp hq

/-- C10 amended: normalization strips *all* trailing `/` from the path
    (`rstrip('/')`): every path is its stripped form followed by some
    number of slashes, the stripped form never ends in `/`, and the root
    path consistently maps to the empty path (`http://h/` normalizes to
    `http://h`, and any number of trailing slashes is removed, e.g.
    `/a///` to `/a`). -/
theorem c10_amended_rstrip :
    (∀ p : List Char, ∃ n, p = rstripSlash p ++ List.replicate n '/' ∧
        (rstripSlash p).getLast? ≠ some '/') ∧
      rstripSlash ['/'] = [] ∧
      processUrl "http://h/" = .ok "http://h" ∧
      processUrl "http://h/a///" = .ok "http://h/a" := by
  refine ⟨?_, by decide, by decide, by decide⟩
  intro p
  refine ⟨(p.reverse.takeWhile (· = '/')).length, ?_, ?_⟩
  · unfold rstripSlash
    conv_lhs => rw [← p.reverse_reverse]
    conv_lhs => rw [← List.takeWhile_append_dropWhile (· = '/') p.reverse]
    rw [List.reverse_append]
    congr 1
    refine List.eq_replicate_iff.mpr ⟨by simp, ?_⟩
    intro b hb
    have := List.mem_takeWhile_imp (List.mem_reverse.mp hb)
    exact of_decide_eq_true this
  · unfold rstripSlash
    rw [List.getLast?_reverse]
    intro hc
    have := head?_dropWhile_ne (· = '/') p.reverse '/' hc
    simp at this

/-- witness for the universally quantified part of the C10 amendment -/
theorem c10_witness :
    ∃ n, "/a//".toList = rstripSlash "/a//".toList ++ List.replicate n '/' ∧
      (rstripSlash "/a//".toList).getLast? ≠ some '/' :=
  c10_amended_rstrip.1 "/a//".toList

/-! ## C1 -/

/-- C1 counterexample: dedup keys are the raw (pre-normalization) URL
    strings, and seed URLs scheduled by `run` bypass the dedup set
    entirely.  Two distinct raw strings with the same normalized URL are
    both accepted by `_schedule_task` and both fetched; two such seeds
    are likewise both fetched, and the dedup set stays empty for seeds.
    So scheduling the same normalized URL twice can issue two fetches,
    with no Bloom false positive involved (the model dedup is exact). -/
theorem c1_counterexample :
    processUrl "http://example.com/a/" = processUrl "http://example.com/a" ∧
      ((scheduleTaskRun envPlain 5 "http://example.com/a" 1
          (scheduleTaskRun envPlain 5 "http://example.com/a/" 1 initState).1).1).fetches =
        ["http://example.com/a", "http://example.com/a"] ∧
      (runTargets envPlain 5 ["http://example.com/a/", "http://example.com/a"]
          initState).fetches =
        ["http://example.com/a", "http://example.com/a"] ∧
      (runTargets envPlain 5 ["http://example.com/a/", "http://example.com/a"]
          initState).dedup = [] :=
  ⟨rfl, rfl, rfl, rfl⟩

/-- C1 amended: for every URL accepted by `_schedule_task`, a dedup
    entry for the exact, un-normalized URL string is added at the
    instant of acceptance and before the corresponding fetch is issued,
    and dedup entries are never removed by any `scan` or
    `_schedule_task` call; consequently scheduling the same URL *string*
    twice through `_schedule_task` leaves the state of the first call
    unchanged, so at most one fetch is issued for it.  (As the
    counterexample shows, this does not extend to distinct strings with
    equal normalizations, nor to seed URLs, which bypass the dedup
    set.) -/
theorem c1_amended_dedup :
    (∀ (env : Env) (fuel : Nat) (url : String) (depth : Nat) (s : ScanState),
        s.dedup ⊆ (scan env fuel url depth s).dedup) ∧
    (∀ (env : Env) (fuel : Nat) (url : String) (depth : Nat) (s : ScanState),
        s.dedup ⊆ ((scheduleTaskRun env fuel url depth s).1).dedup) ∧
    (∀ (env : Env) (fuel : Nat) (url : String) (depth : Nat) (s : ScanState),
        s.shutdown = false → depth ≤ CONFIG.maxDepth →
        s.dedup.contains url = false →
        ∃ s', url ∈ s'.dedup ∧ s'.fetches = s.fetches ∧
          scheduleTaskRun env fuel url depth s =
            (scan env fuel url depth s', env.childTimeout url)) ∧
    (∀ (env : Env) (fuel : Nat) (url : String) (depth : Nat) (s : ScanState),
        (scheduleTaskRun env fuel url depth
            ((scheduleTaskRun env fuel url depth s).1)).1 =
          (scheduleTaskRun env fuel url depth s).1) := by
  refine ⟨?_, ?_, ?_, ?_⟩
  · intro env fuel url depth s
    exact (scan_extends env fuel url depth s).2.1
  · intro env fuel url depth s
    exact (scheduleTask_extends (scan env fuel) env.childTimeout url depth s
      (fun u d st => scan_extends env fuel u d st)).2.1
  · intro env fuel url depth s hsd hd hct
    unfold scheduleTaskRun scheduleTask
    rw [if_pos ⟨by simp [hsd], hd, by simpa using hct⟩]
    refine ⟨{ s with dedup := url :: s.dedup, scheduled := s.scheduled ++ [(url, depth)] }, ?_, rfl, rfl⟩
    exact List.mem_cons_self url s.dedup
  · intro env fuel url depth s
    unfold scheduleTaskRun scheduleTask
    by_cases hg : (¬ s.shutdown = true ∧ depth ≤ CONFIG.maxDepth ∧
        ¬ s.dedup.contains url = true)
    · rw [if_pos hg]
      have hmem : url ∈ (scan env fuel url depth
          { s with dedup := url :: s.dedup,
                   scheduled := s.scheduled ++ [(url, depth)] }).dedup :=
        (scan_extends env fuel url depth _).2.1 (List.mem_cons_self url s.dedup)
      rw [if_neg]
      rintro ⟨-, -, hnc⟩
      exact hnc (by simpa using hmem)
    · rw [if_neg hg, if_neg hg]

/-- witness for the acceptance part of the C1 amendment -/
theorem c1_amended_witness :
    ∃ s', "http://h/x" ∈ s'.dedup ∧ s'.fetches = initState.fetches ∧
      scheduleTaskRun envPlain 5 "http://h/x" 1 initState =
        (scan envPlain 5 "http://h/x" 1 s', envPlain.childTimeout "http://h/x") :=
  c1_amended_dedup.2.2.1 envPlain 5 "http://h/x" 1 initState rfl (by decide) (by decide)

/-! ## C7 -/

theorem scan_scheduled_ne_zero (env : Env) (fuel : Nat) (url : String) (depth : Nat)
    (s : ScanState) (h : depth ≠ 0) :
    (scan env fuel url depth s).scheduled = s.scheduled := by
  cases fuel with
  | zero => rfl
  | succ fuel =>
    rw [scan_succ]
    unfold scanStep
    split
    · rfl
    · rcases hproc : processUrl url with e | p
      · simp only [hproc]
      · simp only [hproc]
        by_cases hpe : p = ""
        · rw [if_pos hpe]
        · rw [if_neg hpe]
          rcases hdet : detectSensitive p with ⟨b, reason⟩
          cases b
          · simp only [hdet]
            rcases hfetch : env.fetch p with _ | resp
            · simp only [hfetch]
            · simp only [hfetch]
              rw [if_neg (by rintro ⟨h0, -⟩; exact h h0)]
          · simp only [hdet]

theorem linkLoop_scheduled_one (scanF : String → Nat → ScanState → ScanState)
    (timeoutF : String → Bool) (resolveF : String → String → String)
    (base : String) (links : List String) (s : ScanState)
    (hF : ∀ u st, (scanF u 1 st).scheduled = st.scheduled) :
    ∃ L, (linkLoop scanF timeoutF resolveF base 0 links s).1.scheduled =
        s.scheduled ++ L ∧ ∀ pr ∈ L, pr.2 = 1 := by
  induction links generalizing s with
  | nil => exact ⟨[], by simp [linkLoop], by simp⟩
  | cons href rest ih =>
    simp only [linkLoop]
    unfold scheduleTask
    by_cases hg : (¬ s.shutdown = true ∧ 0 + 1 ≤ CONFIG.maxDepth ∧
        ¬ s.dedup.contains (resolveF base href) = true)
    · rw [if_pos hg]
      rcases htm : timeoutF (resolveF base href) with _ | _
      · obtain ⟨L', hL', hall'⟩ := ih (scanF (resolveF base href) (0 + 1)
          { s with dedup := resolveF base href :: s.dedup,
                   scheduled := s.scheduled ++ [(resolveF base href, 0 + 1)] })
        refine ⟨(resolveF base href, 0 + 1) :: L', ?_, ?_⟩
        · rw [hL', hF]
          simp
        · intro pr hpr
          cases hpr with
          | head => simp
          | tail _ h => exact hall' pr h
      · refine ⟨[(resolveF base href, 0 + 1)], ?_, ?_⟩
        · rw [hF]
        · intro pr hpr
          cases hpr with
          | head => simp
          | tail _ h => cases h
    · rw [if_neg hg]
      exact ih s

/-- C7: link extraction and child spawning happen only for tasks at
    depth 0 and only when the response content type indicates HTML;
    every task accepted by `_schedule_task` during a `scan` call has
    depth exactly 1, so no task is ever scheduled at depth 2 or greater
    even though `max_depth` is 3. -/
theorem c7_depth_one (env : Env) (fuel : Nat) (url : String) (depth : Nat)
    (s : ScanState) :
    ∃ L, (scan env fuel url depth s).scheduled = s.scheduled ++ L ∧
      (∀ pr ∈ L, pr.2 = 1) ∧
      (depth ≠ 0 → L = []) ∧
      (L ≠ [] → depth = 0 ∧ ∃ p resp, processUrl url = .ok p ∧
        env.fetch p = some resp ∧
        isSubl "text/html".toList resp.contentType.data = true) := by
  by_cases hz : depth = 0
  · subst hz
    cases fuel with
    | zero => exact ⟨[], by simp [scan_zero], by simp, fun h => rfl, by simp⟩
    | succ fuel =>
      rw [scan_succ]
      unfold scanStep
      split
      · exact ⟨[], by simp, by simp, fun h => rfl, by simp⟩
      · rcases hproc : processUrl url with e | p
        · simp only [hproc]
          exact ⟨[], by simp, by simp, fun h => rfl, by simp⟩
        · simp only [hproc]
          by_cases hpe : p = ""
          · rw [if_pos hpe]
            exact ⟨[], by simp, by simp, fun h => rfl, by simp⟩
          · rw [if_neg hpe]
            rcases hdet : detectSensitive p with ⟨b, reason⟩
            cases b
            · simp only [hdet]
              rcases hfetch : env.fetch p with _ | resp
              · simp only [hfetch]
                exact ⟨[], by simp, by simp, fun h => rfl, by simp⟩
              · simp only [hfetch]
                split
                · rename_i hcond
                  obtain ⟨L, hL, hall⟩ := linkLoop_scheduled_one (scan env fuel)
                    env.childTimeout env.resolve p resp.links
                    { s with fetches := s.fetches ++ [p],
                             successRequests := s.successRequests + 1 }
                    (fun u st => scan_scheduled_ne_zero env fuel u 1 st (by omega))
                  rcases hll : linkLoop (scan env fuel) env.childTimeout env.resolve p 0
                      resp.links
                      { s with fetches := s.fetches ++ [p],
                               successRequests := s.successRequests + 1 } with ⟨s3, tb⟩
                  rw [hll] at hL
                  refine ⟨L, ?_, hall, fun hne => absurd rfl hne, ?_⟩
                  · cases tb <;> simp only [hll] <;> exact hL
                  · intro hne
                    exact ⟨by trivial, p, resp, rfl, hfetch, hcond.2⟩
                · exact ⟨[], by simp, by simp, fun h => rfl, by simp⟩
            · simp only [hdet]
              exact ⟨[], by simp, by simp, fun h => rfl, by simp⟩
  · refine ⟨[], by simp [scan_scheduled_ne_zero env fuel url depth s hz], by simp,
      fun h => rfl, by simp⟩

/-- witness for C7 at a concrete HTML page with one link -/
theorem c7_witness :
    ∃ L, (scan envTimeout 3 "http://h" 0 initState).scheduled =
        initState.scheduled ++ L ∧
      (∀ pr ∈ L, pr.2 = 1) ∧
      ((0 : Nat) ≠ 0 → L = []) ∧
      (L ≠ [] → (0 : Nat) = 0 ∧ ∃ p resp, processUrl "http://h" = .ok p ∧
        envTimeout.fetch p = some resp ∧
        isSubl "text/html".toList resp.contentType.data = true) :=
  c7_depth_one envTimeout 3 "http://h" 0 initState

/-! ## C6 -/

/-- C6: per-URL error containment.
    (1) A normalization failure makes `scan` return with exactly the
    failed-request counter incremented, touching nothing else.
    (2) A transport failure (`env.fetch` raising) makes `scan` return
    with the fetch recorded and exactly the failed counter incremented.
    (3) The timeout exception propagating out of the link loop can only
    originate from an awaited child subtree that actually timed out.
    (4) When a child subtree times out, the parent `scan` catches the
    `TimeoutError` and returns the loop state with exactly the failed
    counter incremented — no exception escapes the `scan` call.
    (5) No `scan` call ever flips the shutdown flag or discards
    previously recorded findings or fetches, so sibling branches and the
    overall run are never aborted by a per-URL error. -/
theorem c6_error_containment :
    (∀ (env : Env) (fuel : Nat) (url : String) (depth : Nat) (s : ScanState)
        (e : NormErr),
        s.shutdown = false → depth ≤ CONFIG.maxDepth → processUrl url = .error e →
        scan env (fuel + 1) url depth s =
          { s with failedRequests := s.failedRequests + 1 }) ∧
    (∀ (env : Env) (fuel : Nat) (url : String) (depth : Nat) (s : ScanState)
        (p : String) (r : Option String),
        s.shutdown = false → depth ≤ CONFIG.maxDepth → processUrl url = .ok p →
        p ≠ "" → detectSensitive p = (false, r) → env.fetch p = none →
        scan env (fuel + 1) url depth s =
          { s with fetches := s.fetches ++ [p],
                   failedRequests := s.failedRequests + 1 }) ∧
    (∀ (scanF : String → Nat → ScanState → ScanState) (timeoutF : String → Bool)
        (resolveF : String → String → String) (base : String) (depth : Nat)
        (links : List String) (s : ScanState),
        (linkLoop scanF timeoutF resolveF base depth links s).2 = true →
        ∃ href ∈ links, timeoutF (resolveF base href) = true) ∧
    (∀ (env : Env) (fuel : Nat) (url : String) (s : ScanState) (p : String)
        (r : Option String) (resp : FetchResp),
        s.shutdown = false → processUrl url = .ok p → p ≠ "" →
        detectSensitive p = (false, r) → env.fetch p = some resp →
        isSubl "text/html".toList resp.contentType.data = true →
        (linkLoop (scan env fuel) env.childTimeout env.resolve p 0 resp.links
            { s with fetches := s.fetches ++ [p],
                     successRequests := s.successRequests + 1 }).2 = true →
        scan env (fuel + 1) url 0 s =
          { (linkLoop (scan env fuel) env.childTimeout env.resolve p 0 resp.links
               { s with fetches := s.fetches ++ [p],
                        successRequests := s.successRequests + 1 }).1 with
            failedRequests :=
              (linkLoop (scan env fuel) env.childTimeout env.resolve p 0 resp.links
                { s with fetches := s.fetches ++ [p],
                         successRequests := s.successRequests + 1 }).1.failedRequests
                + 1 }) ∧
    (∀ (env : Env) (fuel : Nat) (url : String) (depth : Nat) (s : ScanState),
        (scan env fuel url depth s).shutdown = s.shutdown ∧
          s.findings <+: (scan env fuel url depth s).findings ∧
          s.fetches <+: (scan env fuel url depth s).fetches) := by
  refine ⟨?_, ?_, ?_, ?_, ?_⟩
  · intro env fuel url depth s e hsd hd hproc
    rw [scan_succ]
    unfold scanStep
    have hcond : ¬ (s.shutdown = true ∨ depth > CONFIG.maxDepth) := by
      rintro (h | h)
      · rw [hsd] at h
        exact Bool.false_ne_true h
      · omega
    rw [if_neg hcond]
    simp only [hproc]
  · intro env fuel url depth s p r hsd hd hproc hpe hdet hfetch
    rw [scan_succ]
    unfold scanStep
    have hcond : ¬ (s.shutdown = true ∨ depth > CONFIG.maxDepth) := by
      rintro (h | h)
      · rw [hsd] at h
        exact Bool.false_ne_true h
      · omega
    rw [if_neg hcond]
    simp only [hproc]
    rw [if_neg hpe]
    simp only [hdet, hfetch]
  · intro scanF timeoutF resolveF base depth links s
    induction links generalizing s with
    | nil =>
      intro h
      cases h
    | cons href rest ih =>
      simp only [linkLoop]
      unfold scheduleTask
      by_cases hg : (¬ s.shutdown = true ∧ depth + 1 ≤ CONFIG.maxDepth ∧
          ¬ s.dedup.contains (resolveF base href) = true)
      · rw [if_pos hg]
        rcases htm : timeoutF (resolveF base href) with _ | _
        · intro h
          obtain ⟨h', hm, ht⟩ := ih _ h
          exact ⟨h', List.mem_cons_of_mem _ hm, ht⟩
        · intro h
          exact ⟨href, List.mem_cons_self href rest, htm⟩
      · rw [if_neg hg]
        intro h
        obtain ⟨h', hm, ht⟩ := ih _ h
        exact ⟨h', List.mem_cons_of_mem _ hm, ht⟩
  · intro env fuel url s p r resp hsd hproc hpe hdet hfetch hhtml hto
    rw [scan_succ]
    unfold scanStep
    have hcond : ¬ (s.shutdown = true ∨ 0 > CONFIG.maxDepth) := by
      rintro (h | h)
      · rw [hsd] at h
        exact Bool.false_ne_true h
      · omega
    rw [if_neg hcond]
    simp only [hproc]
    rw [if_neg hpe]
    simp only [hdet, hfetch]
    rcases hll : linkLoop (scan env fuel) env.childTimeout env.resolve p 0 resp.links
        { s with fetches := s.fetches ++ [p],
                 successRequests := s.successRequests + 1 } with ⟨s3, tb⟩
    rw [hll] at hto
    cases tb with
    | false => cases hto
    | true =>
      split
      · simp only [hll]
      · rename_i hcond2
        exact absurd ⟨by trivial, hhtml⟩ hcond2
  · intro env fuel url depth s
    obtain ⟨h1, h2, h3, h4, h5, h6, h7⟩ := scan_extends env fuel url depth s
    exact ⟨h1, h3, h4⟩

/-- witness for C6: a forbidden-port URL, a transport failure, the
    link-loop timeout origin, and a timing-out child subtree, at
    concrete inputs -/
theorem c6_witness :
    scan envPlain 1 "http://h:22/x" 0 initState =
      { initState with failedRequests := initState.failedRequests + 1 } ∧
    scan envDown 1 "http://h/x" 0 initState =
      { initState with fetches := initState.fetches ++ ["http://h/x"],
                       failedRequests := initState.failedRequests + 1 } ∧
    (∃ href ∈ ["/a.env"], envTimeout.childTimeout
        (envTimeout.resolve "http://h" href) = true) ∧
    scan envTimeout 2 "http://h" 0 initState =
      { (linkLoop (scan envTimeout 1) envTimeout.childTimeout envTimeout.resolve
          "http://h" 0 ["/a.env"]
          { initState with fetches := initState.fetches ++ ["http://h"],
                           successRequests := initState.successRequests + 1 }).1 with
        failedRequests :=
          (linkLoop (scan envTimeout 1) envTimeout.childTimeout envTimeout.resolve
            "http://h" 0 ["/a.env"]
            { initState with fetches := initState.fetches ++ ["http://h"],
                             successRequests := initState.successRequests + 1 }).1.failedRequests
            + 1 } :=
  ⟨c6_error_containment.1 envPlain 0 "http://h:22/x" 0 initState .forbiddenPort rfl
      (by decide) (by decide),
   c6_error_containment.2.1 envDown 0 "http://h/x" 0 initState "http://h/x" none rfl
      (by decide) (by decide) (by decide) (by decide) rfl,
   c6_error_containment.2.2.1 (scan envTimeout 1) envTimeout.childTimeout
      envTimeout.resolve "http://h" 0 ["/a.env"] initState (by decide),
   c6_error_containment.2.2.2.1 envTimeout 1 "http://h" initState "http://h" none
      ⟨"text/html", ["/a.env"]⟩ rfl (by decide) (by decide) (by decide) rfl
      (by decide) (by decide)⟩

/-! ## C8 -/

theorem pyUnquote_cons_ne (c : Char) (r : List Char) (h : c ≠ '%') :
    pyUnquote (c :: r) = c :: pyUnquote r := by
  match r with
  | [] => simp [pyUnquote, h]
  | [a] => simp [pyUnquote, h]
  | a :: b :: r2 => simp [pyUnquote, h]

theorem pyUnquote_id (s : List Char) (h : '%' ∉ s) : pyUnquote s = s := by
  induction s with
  | nil => rfl
  | cons c r ih =>
    have hc : c ≠ '%' := fun he => h (he ▸ List.mem_cons_self c r)
    rw [pyUnquote_cons_ne c r hc, ih (fun hm => h (List.mem_cons_of_mem c hm))]

theorem plusToSpace_id (s : List Char) (h : '+' ∉ s) : plusToSpace s = s := by
  induction s with
  | nil => rfl
  | cons c r ih =>
    have hc : c ≠ '+' := fun he => h (he ▸ List.mem_cons_self c r)
    simp only [plusToSpace, List.map_cons, if_neg hc]
    have := ih (fun hm => h (List.mem_cons_of_mem c hm))
    simp only [plusToSpace] at this
    rw [this]

theorem decodeQs_id (s : List Char) (hp : '%' ∉ s) (hl : '+' ∉ s) :
    decodeQs s = s := by
  unfold decodeQs
  rw [plusToSpace_id s hl, pyUnquote_id s hp]

theorem splitAll_not_mem (c : Char) (s : List Char) (h : c ∉ s) :
    splitAll c s = [s] := by
  induction s with
  | nil => rfl
  | cons x r ih =>
    have hx : x ≠ c := fun he => h (he ▸ List.mem_cons_self x r)
    simp only [splitAll, ih (fun hm => h (List.mem_cons_of_mem x hm)), if_neg hx]

theorem splitAll_ne_nil (c : Char) (s : List Char) : splitAll c s ≠ [] := by
  cases s with
  | nil => simp [splitAll]
  | cons x r =>
    simp only [splitAll]
    rcases splitAll c r with _ | ⟨h1, t1⟩
    · simp
    · by_cases hx : x = c <;> simp [hx]

theorem splitAll_append (c : Char) (a rest : List Char) (h : c ∉ a) :
    splitAll c (a ++ c :: rest) = a :: splitAll c rest := by
  induction a with
  | nil =>
    have hs := splitAll_ne_nil c rest
    simp only [List.nil_append, splitAll]
    cases hrest : splitAll c rest with
    | nil => exact absurd hrest hs
    | cons h1 t1 => simp
  | cons x r ih =>
    have hx : x ≠ c := fun he => h (he ▸ List.mem_cons_self x r)
    have ih' := ih (fun hm => h (List.mem_cons_of_mem x hm))
    rw [List.cons_append]
    simp only [splitAll]
    rw [ih']
    simp [hx]

theorem splitFirstD_not_mem (c : Char) (s : List Char) (h : c ∉ s) :
    splitFirstD c s = (s, []) := by
  induction s with
  | nil => rfl
  | cons x r ih =>
    have hx : x ≠ c := fun he => h (he ▸ List.mem_cons_self x r)
    simp only [splitFirstD, if_neg hx, ih (fun hm => h (List.mem_cons_of_mem x hm))]

theorem splitFirstD_append (c : Char) (a b : List Char) (h : c ∉ a) :
    splitFirstD c (a ++ c :: b) = (a, b) := by
  induction a with
  | nil => simp [splitFirstD]
  | cons x r ih =>
    have hx : x ≠ c := fun he => h (he ▸ List.mem_cons_self x r)
    have ih' := ih (fun hm => h (List.mem_cons_of_mem x hm))
    rw [List.cons_append]
    simp only [splitFirstD, if_neg hx, ih']

theorem splitFirst?_append (c : Char) (a b : List Char) (h : c ∉ a) :
    splitFirst? c (a ++ c :: b) = some (a, b) := by
  unfold splitFirst?
  rw [if_pos (List.mem_append_right a (List.mem_cons_self c b)),
    splitFirstD_append c a b h]

theorem parseQsl_field (k v : List Char) (hg : GoodField (k, v)) :
    (if (k ++ '=' :: v) = [] then none
     else match splitFirst? '=' (k ++ '=' :: v) with
       | none => none
       | some (a, b) => if b = [] then none else some (decodeQs a, decodeQs b)) =
      some (k, v) := by
  obtain ⟨hk1, hk2, hk3, hk4, hv1, hv2, hv3, hv4⟩ := hg
  rw [if_neg (by simp)]
  rw [splitFirst?_append '=' k v hk2]
  show (if v = [] then none else some (decodeQs k, decodeQs v)) = some (k, v)
  rw [if_neg hv1, decodeQs_id k hk3 hk4, decodeQs_id v hv3 hv4]

theorem parseQsl_ampJoin (ps : List (List Char × List Char))
    (h : ∀ kv ∈ ps, GoodField kv) :
    parseQsl (ampJoinFields ps) = ps := by
  induction ps with
  | nil => rfl
  | cons kv t ih =>
    rcases kv with ⟨k, v⟩
    have hg := h (k, v) (List.mem_cons_self _ _)
    have hfield_amp : '&' ∉ (k ++ '=' :: v) := by
      intro hm
      rcases List.mem_append.mp hm with hm | hm
      · exact hg.1 hm
      · rcases List.mem_cons.mp hm with hm | hm
        · exact absurd hm (by decide)
        · exact hg.2.2.2.2.2.1 hm
    cases t with
    | nil =>
      unfold parseQsl ampJoinFields joinAmp
      simp only [List.map_cons, List.map_nil]
      rw [splitAll_not_mem '&' _ hfield_amp]
      simp only [List.filterMap]
      rw [parseQsl_field k v hg]
    | cons kv2 t2 =>
      have hrest := ih (fun x hx => h x (List.mem_cons_of_mem _ hx))
      unfold parseQsl ampJoinFields at hrest ⊢
      simp only [List.map_cons] at hrest ⊢
      have hjoin : joinAmp ((k ++ '=' :: v) ::
          (kv2.1 ++ '=' :: kv2.2) :: t2.map (fun kv => kv.1 ++ '=' :: kv.2)) =
          (k ++ '=' :: v) ++ '&' ::
            joinAmp ((kv2.1 ++ '=' :: kv2.2) :: t2.map (fun kv => kv.1 ++ '=' :: kv.2)) := by
        rfl
      rw [hjoin, splitAll_append '&' _ _ hfield_amp]
      simp only [List.filterMap_cons]
      rw [parseQsl_field k v hg]
      rw [hrest]


theorem qsUpdate_keys_mem (acc : List (List Char × List (List Char))) (k : List Char)
    (v : List Char) (hmem : acc.any (fun kv => kv.1 = k) = true) :
    qsUpdate acc k v = acc.map (fun kv => if kv.1 = k then (kv.1, kv.2 ++ [v]) else kv) := by
  unfold qsUpdate
  rw [if_pos hmem]

theorem qsUpdate_keys_not_mem (acc : List (List Char × List (List Char))) (k : List Char)
    (v : List Char) (hmem : ¬ acc.any (fun kv => kv.1 = k) = true) :
    qsUpdate acc k v = acc ++ [(k, [v])] := by
  unfold qsUpdate
  rw [if_neg hmem]

theorem specFirstOccurrence_congr (seen1 seen2 : List (List Char))
    (h : ∀ x, x ∈ seen1 ↔ x ∈ seen2) (l : List (List Char × List Char)) :
    specFirstOccurrence seen1 l = specFirstOccurrence seen2 l := by
  induction l generalizing seen1 seen2 with
  | nil => rfl
  | cons kv t ih =>
    simp only [specFirstOccurrence]
    by_cases hm : kv.1 ∈ seen1
    · rw [if_pos hm, if_pos ((h kv.1).mp hm)]
      exact ih seen1 seen2 h
    · rw [if_neg hm, if_neg (fun hx => hm ((h kv.1).mpr hx))]
      rw [ih (kv.1 :: seen1) (kv.1 :: seen2) (by intro x; simp [h x])]

theorem parseQs_proj (l : List (List Char × List Char))
    (acc : List (List Char × List (List Char)))
    (hacc : ∀ kv ∈ acc, kv.2 ≠ []) :
    (l.foldl (fun a kv => qsUpdate a kv.1 kv.2) acc).map
        (fun kv => (kv.1, kv.2.headD [])) =
      acc.map (fun kv => (kv.1, kv.2.headD [])) ++
        specFirstOccurrence (acc.map (fun kv => kv.1)) l := by
  induction l generalizing acc with
  | nil => simp [specFirstOccurrence]
  | cons kv t ih =>
    rcases kv with ⟨k, v⟩
    simp only [List.foldl_cons, specFirstOccurrence]
    by_cases hmem : acc.any (fun kv => kv.1 = k) = true
    · have hkseen : k ∈ acc.map (fun kv => kv.1) := by
        simp only [List.any_eq_true] at hmem
        obtain ⟨kv0, hkv0, hk0⟩ := hmem
        simp only [List.mem_map]
        exact ⟨kv0, hkv0, by simpa using hk0⟩
      rw [if_pos hkseen, qsUpdate_keys_mem acc k v hmem]
      have hrw := ih (acc.map (fun kv => if kv.1 = k then (kv.1, kv.2 ++ [v]) else kv))
        (by
          intro kv0 hkv0
          simp only [List.mem_map] at hkv0
          obtain ⟨kv1, hkv1, hkv1e⟩ := hkv0
          by_cases hk1 : kv1.1 = k
          · rw [if_pos hk1] at hkv1e
            rw [← hkv1e]
            simp
          · rw [if_neg hk1] at hkv1e
            rw [← hkv1e]
            exact hacc kv1 hkv1)
      rw [hrw]
      congr 1
      · rw [List.map_map]
        apply List.map_congr_left
        intro kv0 hkv0
        by_cases hk0 : kv0.1 = k
        · simp only [Function.comp, if_pos hk0]
          have := hacc kv0 hkv0
          rcases hval : kv0.2 with _ | ⟨v0, t0⟩
          · exact absurd hval this
          · simp
        · simp only [Function.comp, if_neg hk0]
      · congr 1
        rw [List.map_map]
        apply List.map_congr_left
        intro kv0 hkv0
        by_cases hk0 : kv0.1 = k <;> simp [hk0]
    · have hkseen : k ∉ acc.map (fun kv => kv.1) := by
        intro hm
        simp only [List.mem_map] at hm
        obtain ⟨kv0, hkv0, hk0⟩ := hm
        exact hmem (List.any_eq_true.mpr ⟨kv0, hkv0, by simpa using hk0⟩)
      rw [if_neg hkseen, qsUpdate_keys_not_mem acc k v hmem]
      have hrw := ih (acc ++ [(k, [v])])
        (by
          intro kv0 hkv0
          rcases List.mem_append.mp hkv0 with hm | hm
          · exact hacc kv0 hm
          · rw [List.mem_singleton.mp hm]
            simp)
      rw [hrw]
      simp only [List.map_append, List.map_cons, List.map_nil, List.append_assoc]
      congr 1
      show (k, v) :: specFirstOccurrence (List.map (fun kv => kv.1) acc ++ [k]) t =
        (k, v) :: specFirstOccurrence (k :: List.map (fun kv => kv.1) acc) t
      rw [specFirstOccurrence_congr (List.map (fun kv => kv.1) acc ++ [k])
        (k :: List.map (fun kv => kv.1) acc)
        (by
          intro x
          rw [List.mem_append, List.mem_singleton, List.mem_cons]
          exact or_comm) t]

theorem filter_map_comm (l : List (List Char × List Char))
    (p : List Char → Bool) :
    ((l.map (fun kv => (kv.1, kv.2))).filter (fun kv => p kv.1)) =
      (l.filter (fun kv => p kv.1)).map (fun kv => (kv.1, kv.2)) := by
  simp

/-- C8 counterexample: `parse_qs` (with its default
    `keep_blank_values=False`) drops the blank-valued parameter `a=`,
    whose key does not start with `utm_`, so it is not preserved in the
    normalized URL. -/
theorem c8_counterexample :
    processUrl "http://h/p?a=&b=1" = .ok "http://h/p?b=1" ∧
      cleanQueryL ("a=&b=1".toList) = "b=1".toList ∧
      ¬ ("utm_".toList).isPrefixOf ("a".toList) = true :=
  ⟨by decide, by decide, by decide⟩

/-- C8 amended: for a query consisting of `key=value` fields whose keys
    contain no `&`, `=`, `%`, `+` and whose values are nonempty and
    contain no `&`, `%`, `+`, the query cleaning of `_process_url`
    removes exactly the parameters whose key starts with `utm_` and
    keeps every other parameter with the first value of its key, in
    original first-occurrence key order.  (In general `parse_qs`
    additionally drops fields with an empty value or no `=` — the
    counterexample — and percent/plus-decodes keys and values.) -/
theorem c8_amended_query (ps : List (List Char × List Char))
    (h : ∀ kv ∈ ps, GoodField kv) :
    cleanQueryL (ampJoinFields ps) =
      ampJoinFields ((specFirstOccurrence [] ps).filter
        (fun kv => ¬ ("utm_".toList).isPrefixOf kv.1)) := by
  unfold cleanQueryL parseQs
  rw [parseQsl_ampJoin ps h]
  unfold ampJoinFields
  congr 1
  have hproj := parseQs_proj ps [] (by intro kv hkv; cases hkv)
  simp only [List.map_nil, List.nil_append] at hproj
  have hmapmap : ((ps.foldl (fun a kv => qsUpdate a kv.1 kv.2) []).filter
        (fun kv => ¬ ("utm_".toList).isPrefixOf kv.1)).map
        (fun kv => kv.1 ++ '=' :: kv.2.headD []) =
      (((ps.foldl (fun a kv => qsUpdate a kv.1 kv.2) []).map
        (fun kv => (kv.1, kv.2.headD []))).filter
        (fun kv => ¬ ("utm_".toList).isPrefixOf kv.1)).map
        (fun kv => kv.1 ++ '=' :: kv.2) := by
    rw [List.filter_map]
    rw [List.map_map]
    rfl
  rw [hmapmap, hproj]

/-- witness for the C8 amendment at a concrete parameter list -/
theorem c8_witness :
    cleanQueryL (ampJoinFields
        [("utm_src".toList, "x".toList), ("b".toList, "1".toList),
         ("b".toList, "2".toList), ("c".toList, "3".toList)]) =
      ampJoinFields ((specFirstOccurrence []
          [("utm_src".toList, "x".toList), ("b".toList, "1".toList),
           ("b".toList, "2".toList), ("c".toList, "3".toList)]).filter
        (fun kv => ¬ ("utm_".toList).isPrefixOf kv.1)) :=
  c8_amended_query
    [("utm_src".toList, "x".toList), ("b".toList, "1".toList),
     ("b".toList, "2".toList), ("c".toList, "3".toList)]
    (by decide)

/-! ## C9 -/

theorem asciiLowerChar_idem (c : Char) :
    asciiLowerChar (asciiLowerChar c) = asciiLowerChar c := by
  unfold asciiLowerChar
  split
  · rename_i h
    have hv : (c.toNat + 32).isValidChar := by
      have : c.toNat ≤ 90 := h.2
      exact Or.inl (by omega)
    have htn : (Char.ofNat (c.toNat + 32)).toNat = c.toNat + 32 := by
      unfold Char.ofNat
      rw [dif_pos hv]
      rfl
    rw [if_neg]
    rintro ⟨-, h2⟩
    have : (Char.ofNat (c.toNat + 32)).toNat ≤ 90 := h2
    rw [htn] at this
    have : c.toNat ≤ 58 := by omega
    have h65 : 65 ≤ c.toNat := h.1
    omega
  · rfl

theorem asciiLower_idem (l : List Char) : asciiLower (asciiLower l) = asciiLower l := by
  unfold asciiLower
  rw [List.map_map]
  apply List.map_congr_left
  intro c hc
  exact asciiLowerChar_idem c

theorem map_fix_mem {f : Char → Char} {l : List Char} (h : l.map f = l) :
    ∀ c ∈ l, f c = c := by
  induction l with
  | nil => intro c hc; cases hc
  | cons x xs ih =>
    rw [List.map_cons] at h
    have hx := List.head_eq_of_cons_eq h
    have ht := List.tail_eq_of_cons_eq h
    intro c hc
    rcases List.mem_cons.mp hc with hc | hc
    · rw [hc]; exact hx
    · exact ih ht c hc

theorem dropWhile_eq_self_of (p : Char → Bool) (l : List Char)
    (h : ∀ c ∈ l, p c = false) : l.dropWhile p = l := by
  cases l with
  | nil => rfl
  | cons x xs =>
    exact List.dropWhile_cons_of_neg (by rw [h x (List.mem_cons_self x xs)]; simp)

theorem pyStrip_id (l : List Char) (h : ∀ c ∈ l, isPyWs c = false) :
    pyStrip l = l := by
  unfold pyStrip
  rw [dropWhile_eq_self_of isPyWs l h,
    dropWhile_eq_self_of isPyWs l.reverse (fun c hc => h c (List.mem_reverse.mp hc)),
    List.reverse_reverse]

theorem isPyWs_of_c0 (c : Char) (h : isC0OrSpace c = false) : isPyWs c = false := by
  by_contra hne
  have hw : isPyWs c = true := by
    cases hb : isPyWs c
    · exact absurd hb hne
    · rfl
  have : c.toNat ≤ 32 := by
    rcases of_decide_eq_true hw with h1 | h1 | h1 | h1 | h1 | h1 <;>
      (rw [h1]; decide)
  unfold isC0OrSpace at h
  rw [decide_eq_false_iff_not] at h
  exact h this

theorem unsafe_of_c0 (c : Char) (h : isC0OrSpace c = false) :
    isUnsafeUrlByte c = false := by
  by_contra hne
  have hw : isUnsafeUrlByte c = true := by
    cases hb : isUnsafeUrlByte c
    · exact absurd hb hne
    · rfl
  have : c.toNat ≤ 32 := by
    rcases of_decide_eq_true hw with h1 | h1 | h1 <;> (rw [h1]; decide)
  unfold isC0OrSpace at h
  rw [decide_eq_false_iff_not] at h
  exact h this

theorem splitFirstD_fst_subset (c : Char) (s : List Char) :
    ∀ x ∈ (splitFirstD c s).1, x ∈ s := by
  induction s with
  | nil => intro x hx; cases hx
  | cons y r ih =>
    intro x hx
    by_cases hy : y = c
    · rw [splitFirstD, if_pos hy] at hx
      cases hx
    · rw [splitFirstD, if_neg hy] at hx
      rcases hsp : splitFirstD c r with ⟨a, b⟩
      rw [hsp] at hx
      rcases List.mem_cons.mp hx with hx | hx
      · rw [hx]; exact List.mem_cons_self y r
      · refine List.mem_cons_of_mem y (ih x ?_)
        rw [hsp]
        exact hx

theorem splitFirstD_snd_subset (c : Char) (s : List Char) :
    ∀ x ∈ (splitFirstD c s).2, x ∈ s := by
  induction s with
  | nil => intro x hx; cases hx
  | cons y r ih =>
    intro x hx
    by_cases hy : y = c
    · rw [splitFirstD, if_pos hy] at hx
      exact List.mem_cons_of_mem y hx
    · rw [splitFirstD, if_neg hy] at hx
      rcases hsp : splitFirstD c r with ⟨a, b⟩
      rw [hsp] at hx
      refine List.mem_cons_of_mem y (ih x ?_)
      rw [hsp]
      exact hx

theorem splitFirstD_spec (c : Char) (s : List Char) :
    (c ∉ s ∧ splitFirstD c s = (s, [])) ∨
      ∃ a b, s = a ++ c :: b ∧ c ∉ a ∧ splitFirstD c s = (a, b) := by
  by_cases hm : c ∈ s
  · right
    induction s with
    | nil => cases hm
    | cons y r ih =>
      by_cases hy : y = c
      · exact ⟨[], r, by rw [hy]; rfl, by simp, by rw [splitFirstD, if_pos hy]⟩
      · have hmr : c ∈ r := by
          rcases List.mem_cons.mp hm with h | h
          · exact absurd h.symm hy
          · exact h
        obtain ⟨a, b, hab, hna, hsp⟩ := ih hmr
        refine ⟨y :: a, b, by rw [hab]; rfl, ?_, ?_⟩
        · intro hx
          rcases List.mem_cons.mp hx with hx | hx
          · exact hy hx.symm
          · exact hna hx
        · rw [splitFirstD, if_neg hy, hsp]
  · exact Or.inl ⟨hm, splitFirstD_not_mem c s hm⟩

theorem takeWhile_append_all (p : Char → Bool) (a b : List Char)
    (h : ∀ c ∈ a, p c = true) :
    (a ++ b).takeWhile p = a ++ b.takeWhile p := by
  induction a with
  | nil => rfl
  | cons x r ih =>
    rw [List.cons_append, List.takeWhile_cons_of_pos (h x (List.mem_cons_self x r)),
      ih (fun c hc => h c (List.mem_cons_of_mem x hc))]
    rfl

theorem dropWhile_append_all (p : Char → Bool) (a b : List Char)
    (h : ∀ c ∈ a, p c = true) :
    (a ++ b).dropWhile p = b.dropWhile p := by
  induction a with
  | nil => rfl
  | cons x r ih =>
    rw [List.cons_append, List.dropWhile_cons_of_pos (h x (List.mem_cons_self x r)),
      ih (fun c hc => h c (List.mem_cons_of_mem x hc))]

theorem takeWhile_eq_nil_of_head (p : Char → Bool) (l : List Char)
    (h : l = [] ∨ ∃ c r, l = c :: r ∧ p c = false) :
    l.takeWhile p = [] ∧ l.dropWhile p = l := by
  rcases h with h | ⟨c, r, hl, hc⟩
  · rw [h]; exact ⟨rfl, rfl⟩
  · rw [hl]
    constructor
    · exact List.takeWhile_cons_of_neg (by rw [hc]; simp)
    · exact List.dropWhile_cons_of_neg (by rw [hc]; simp)

theorem rstripSlash_prefix (p : List Char) : rstripSlash p <+: p := by
  unfold rstripSlash
  conv_rhs => rw [← p.reverse_reverse]
  conv_rhs => rw [← List.takeWhile_append_dropWhile (· = '/') p.reverse]
  rw [List.reverse_append]
  exact List.prefix_append _ _

theorem rstripSlash_idem (p : List Char) :
    rstripSlash (rstripSlash p) = rstripSlash p := by
  unfold rstripSlash
  rw [List.reverse_reverse, List.dropWhile_idempotent]

theorem prefix_head (a b : List Char) (h : a <+: b) :
    a = [] ∨ a.head? = b.head? := by
  obtain ⟨t, ht⟩ := h
  cases a with
  | nil => exact Or.inl rfl
  | cons x xs =>
    right
    rw [← ht]
    rfl

theorem https_not_prefix_http (X : List Char) :
    ("https:".toList).isPrefixOf ("http".toList ++ ':' :: X) = false := rfl

theorem http_prefix_http (X : List Char) :
    ("http:".toList).isPrefixOf ("http".toList ++ ':' :: X) = true :=
  List.isPrefixOf_iff_prefix.mpr ⟨X, rfl⟩

theorem https_prefix_https (X : List Char) :
    ("https:".toList).isPrefixOf ("https".toList ++ ':' :: X) = true :=
  List.isPrefixOf_iff_prefix.mpr ⟨X, rfl⟩

theorem drop5_http (X : List Char) : ("http".toList ++ ':' :: X).drop 5 = X := rfl

theorem drop6_https (X : List Char) : ("https".toList ++ ':' :: X).drop 6 = X := rfl

theorem slashes_prefix (X : List Char) :
    (['/', '/']).isPrefixOf ('/' :: '/' :: X) = true :=
  List.isPrefixOf_iff_prefix.mpr ⟨X, rfl⟩

theorem drop2_slashes (X : List Char) : ('/' :: '/' :: X).drop 2 = X := rfl

theorem http_preUrl (t : List Char) :
    "http://".toList ++ t = preUrl ("http".toList) t := rfl

theorem https_preUrl (t : List Char) :
    "https://".toList ++ t = preUrl ("https".toList) t := rfl

theorem preprocessL_prefix (raw : List Char) :
    ("http://".toList).isPrefixOf (preprocessL raw) = true ∨
      ("https://".toList).isPrefixOf (preprocessL raw) = true := by
  simp only [preprocessL]
  split
  · rename_i h
    rcases h with h | h
    · exact Or.inl h
    · exact Or.inr h
  · left
    exact List.isPrefixOf_iff_prefix.mpr (List.prefix_append _ _)

theorem preprocessL_lower (raw : List Char) :
    asciiLower (preprocessL raw) = preprocessL raw := by
  simp only [preprocessL]
  split
  · exact asciiLower_idem _
  · show asciiLower ("http://".toList ++ asciiLower (pyStrip raw)) = _
    unfold asciiLower
    rw [List.map_append]
    rw [show List.map asciiLowerChar ("http://".toList) = "http://".toList from rfl]
    have h2 := asciiLower_idem (pyStrip raw)
    unfold asciiLower at h2
    rw [h2]

theorem pyUrlparse_decomp (sch X : List Char)
    (hs : sch = "http".toList ∨ sch = "https".toList)
    (hc0 : ∀ c ∈ X, isC0OrSpace c = false) :
    pyUrlparse (preUrl sch X) =
      ⟨sch,
       X.takeWhile (fun c => ¬ isNetStop c),
       (splitParams (splitFirstD '?' (splitFirstD '#'
         (X.dropWhile (fun c => ¬ isNetStop c))).1).1).1,
       (splitParams (splitFirstD '?' (splitFirstD '#'
         (X.dropWhile (fun c => ¬ isNetStop c))).1).1).2,
       (splitFirstD '?' (splitFirstD '#'
         (X.dropWhile (fun c => ¬ isNetStop c))).1).2,
       (splitFirstD '#' (X.dropWhile (fun c => ¬ isNetStop c))).2⟩ := by
  have hdrop : (preUrl sch X).dropWhile isC0OrSpace = preUrl sch X := by
    rcases hs with h | h <;> subst h <;>
      exact List.dropWhile_cons_of_neg (by decide)
  have hfil : (preUrl sch X).filter (fun c => ¬ isUnsafeUrlByte c) = preUrl sch X := by
    apply List.filter_eq_self.mpr
    intro c hc
    unfold preUrl at hc
    rcases List.mem_append.mp hc with hc | hc
    · have hall : ∀ c ∈ sch, (decide (¬ isUnsafeUrlByte c = true)) = true := by
        rcases hs with h | h <;> subst h <;> decide
      exact hall c hc
    · rcases List.mem_cons.mp hc with hc | hc
      · subst hc; decide
      · rcases List.mem_cons.mp hc with hc | hc
        · subst hc; decide
        · rcases List.mem_cons.mp hc with hc | hc
          · subst hc; decide
          · simp [unsafe_of_c0 c (hc0 c hc)]
  simp only [pyUrlparse]
  rw [hdrop, hfil]
  rcases hs with h | h <;> subst h
  · rw [show preUrl ("http".toList) X = "http".toList ++ ':' :: ('/' :: '/' :: X) from rfl]
    rw [https_not_prefix_http, http_prefix_http]
    simp only [Bool.false_eq_true, if_false, if_true, drop5_http, slashes_prefix,
      drop2_slashes]
  · rw [show preUrl ("https".toList) X = "https".toList ++ ':' :: ('/' :: '/' :: X) from rfl]
    rw [https_prefix_https]
    simp only [if_true, drop6_https, slashes_prefix, drop2_slashes]

theorem take1_of_head (path : List Char) (h : path.head? = some '/') :
    path.take 1 = ['/'] := by
  cases path with
  | nil => cases h
  | cons x xs =>
    cases h
    rfl

theorem pyUrlunparse_shape (sch netloc path query frag : List Char)
    (hsch : sch ≠ [])
    (hnet : netloc ≠ [])
    (hpath : path = [] ∨ path.head? = some '/') :
    pyUrlunparse ⟨sch, netloc, path, [], query, frag⟩ =
      buildUrl sch netloc path query frag := by
  unfold pyUrlunparse buildUrl preUrl optPart
  rcases hpath with hp | hp
  · subst hp
    by_cases hq : query = [] <;> by_cases hf : frag = [] <;>
      simp [hnet, hsch, hq, hf, List.append_assoc]
  · have ht1 := take1_of_head path hp
    by_cases hq : query = [] <;> by_cases hf : frag = [] <;>
      simp [hnet, hsch, hq, hf, ht1, List.append_assoc]

theorem cleanQueryL_spec (q : List Char) :
    cleanQueryL q = ampJoinFields ((specFirstOccurrence [] (parseQsl q)).filter
      (fun kv => ¬ ("utm_".toList).isPrefixOf kv.1)) := by
  unfold cleanQueryL parseQs ampJoinFields
  have hproj := parseQs_proj (parseQsl q) [] (by intro kv hkv; cases hkv)
  simp only [List.map_nil, List.nil_append] at hproj
  have hmapmap : (((parseQsl q).foldl (fun a kv => qsUpdate a kv.1 kv.2) []).filter
        (fun kv => ¬ ("utm_".toList).isPrefixOf kv.1)).map
        (fun kv => kv.1 ++ '=' :: kv.2.headD []) =
      ((((parseQsl q).foldl (fun a kv => qsUpdate a kv.1 kv.2) []).map
        (fun kv => (kv.1, kv.2.headD []))).filter
        (fun kv => ¬ ("utm_".toList).isPrefixOf kv.1)).map
        (fun kv => kv.1 ++ '=' :: kv.2) := by
    rw [List.filter_map]
    rw [List.map_map]
    rfl
  rw [hmapmap, hproj]

theorem spec_mem_subset (seen : List (List Char)) (l : List (List Char × List Char)) :
    ∀ kv ∈ specFirstOccurrence seen l, kv ∈ l := by
  induction l generalizing seen with
  | nil => intro kv hkv; cases hkv
  | cons x t ih =>
    intro kv hkv
    simp only [specFirstOccurrence] at hkv
    by_cases hm : x.1 ∈ seen
    · rw [if_pos hm] at hkv
      exact List.mem_cons_of_mem x (ih seen kv hkv)
    · rw [if_neg hm] at hkv
      rcases List.mem_cons.mp hkv with hkv | hkv
      · rw [hkv]; exact List.mem_cons_self x t
      · exact List.mem_cons_of_mem x (ih (x.1 :: seen) kv hkv)

theorem spec_keys_not_seen (seen : List (List Char)) (l : List (List Char × List Char)) :
    ∀ kv ∈ specFirstOccurrence seen l, kv.1 ∉ seen := by
  induction l generalizing seen with
  | nil => intro kv hkv; cases hkv
  | cons x t ih =>
    intro kv hkv
    simp only [specFirstOccurrence] at hkv
    by_cases hm : x.1 ∈ seen
    · rw [if_pos hm] at hkv
      exact ih seen kv hkv
    · rw [if_neg hm] at hkv
      rcases List.mem_cons.mp hkv with hkv | hkv
      · rw [hkv]; exact hm
      · intro hseen
        exact ih (x.1 :: seen) kv hkv (List.mem_cons_of_mem x.1 hseen)

theorem spec_keys_nodup (seen : List (List Char)) (l : List (List Char × List Char)) :
    ((specFirstOccurrence seen l).map (fun kv => kv.1)).Nodup := by
  induction l generalizing seen with
  | nil => exact List.nodup_nil
  | cons x t ih =>
    simp only [specFirstOccurrence]
    by_cases hm : x.1 ∈ seen
    · rw [if_pos hm]
      exact ih seen
    · rw [if_neg hm]
      rw [List.map_cons]
      refine List.nodup_cons.mpr ⟨?_, ih (x.1 :: seen)⟩
      intro hx
      obtain ⟨kv, hkv, hkve⟩ := List.mem_map.mp hx
      have := spec_keys_not_seen (x.1 :: seen) t kv hkv
      exact this (hkve ▸ List.mem_cons_self x.1 seen)

theorem spec_eq_self (seen : List (List Char)) (l : List (List Char × List Char))
    (hnd : (l.map (fun kv => kv.1)).Nodup)
    (hdisj : ∀ kv ∈ l, kv.1 ∉ seen) : specFirstOccurrence seen l = l := by
  induction l generalizing seen with
  | nil => rfl
  | cons x t ih =>
    simp only [specFirstOccurrence]
    rw [if_neg (hdisj x (List.mem_cons_self x t))]
    rw [List.map_cons, List.nodup_cons] at hnd
    rw [ih (x.1 :: seen) hnd.2]
    intro kv hkv
    intro hs
    rcases List.mem_cons.mp hs with hs | hs
    · exact hnd.1 (hs ▸ List.mem_map.mpr ⟨kv, hkv, rfl⟩)
    · exact hdisj kv (List.mem_cons_of_mem x hkv) hs

theorem splitAll_no_sep (c : Char) (s : List Char) :
    ∀ f ∈ splitAll c s, c ∉ f := by
  induction s with
  | nil =>
    intro f hf
    rcases List.mem_singleton.mp hf with rfl
    simp
  | cons x r ih =>
    intro f hf
    rcases hs : splitAll c r with _ | ⟨h1, t1⟩
    · exact absurd hs (splitAll_ne_nil c r)
    · have hunf : splitAll c (x :: r) = if x = c then [] :: h1 :: t1 else (x :: h1) :: t1 := by
        simp only [splitAll]
        rw [hs]
      rw [hunf] at hf
      by_cases hx : x = c
      · rw [if_pos hx] at hf
        rcases List.mem_cons.mp hf with hf | hf
        · rw [hf]; simp
        · exact ih f (by rw [hs]; exact hf)
      · rw [if_neg hx] at hf
        rcases List.mem_cons.mp hf with hf | hf
        · rw [hf]
          intro hc
          rcases List.mem_cons.mp hc with hc | hc
          · exact hx hc.symm
          · exact ih h1 (by rw [hs]; exact List.mem_cons_self h1 t1) hc
        · exact ih f (by rw [hs]; exact List.mem_cons_of_mem h1 hf)

theorem splitAll_mem_subset (c : Char) (s : List Char) :
    ∀ f ∈ splitAll c s, ∀ x ∈ f, x ∈ s := by
  induction s with
  | nil =>
    intro f hf x hx
    rcases List.mem_singleton.mp hf with rfl
    cases hx
  | cons y r ih =>
    intro f hf x hx
    rcases hs : splitAll c r with _ | ⟨h1, t1⟩
    · exact absurd hs (splitAll_ne_nil c r)
    · have hunf : splitAll c (y :: r) = if y = c then [] :: h1 :: t1 else (y :: h1) :: t1 := by
        simp only [splitAll]
        rw [hs]
      rw [hunf] at hf
      by_cases hy : y = c
      · rw [if_pos hy] at hf
        rcases List.mem_cons.mp hf with hf | hf
        · rw [hf] at hx; cases hx
        · exact List.mem_cons_of_mem y (ih f (by rw [hs]; exact hf) x hx)
      · rw [if_neg hy] at hf
        rcases List.mem_cons.mp hf with hf | hf
        · rw [hf] at hx
          rcases List.mem_cons.mp hx with hx | hx
          · rw [hx]; exact List.mem_cons_self y r
          · exact List.mem_cons_of_mem y
              (ih h1 (by rw [hs]; exact List.mem_cons_self h1 t1) x hx)
        · exact List.mem_cons_of_mem y
            (ih f (by rw [hs]; exact List.mem_cons_of_mem h1 hf) x hx)

theorem parseQsl_good (q : List Char) (hp : '%' ∉ q) (hl : '+' ∉ q) :
    ∀ kv ∈ parseQsl q, GoodField kv ∧ (∀ x ∈ kv.1, x ∈ q) ∧ (∀ x ∈ kv.2, x ∈ q) := by
  intro kv hkv
  unfold parseQsl at hkv
  obtain ⟨f, hf, hfkv⟩ := List.mem_filterMap.mp hkv
  by_cases hfe : f = []
  · rw [if_pos hfe] at hfkv
    cases hfkv
  · rw [if_neg hfe] at hfkv
    rcases hsome : splitFirst? '=' f with _ | ⟨k0, v0⟩
    · rw [hsome] at hfkv
      cases hfkv
    · rw [hsome] at hfkv
      have hred : (match some (k0, v0) with
          | none => none
          | some (k, v) => if v = [] then none else some (decodeQs k, decodeQs v)) =
          (if v0 = [] then none else some (decodeQs k0, decodeQs v0)) := rfl
      rw [hred] at hfkv
      by_cases hv0 : v0 = []
      · rw [if_pos hv0] at hfkv
        cases hfkv
      · rw [if_neg hv0] at hfkv
        have hkv' : kv = (decodeQs k0, decodeQs v0) := by
          cases hfkv
          rfl
        unfold splitFirst? at hsome
        by_cases hmeq : '=' ∈ f
        · rw [if_pos hmeq] at hsome
          have hsp : splitFirstD '=' f = (k0, v0) := Option.some.inj hsome
          have hk0f : ∀ x ∈ k0, x ∈ f := by
            intro x hx
            exact splitFirstD_fst_subset '=' f x (by rw [hsp]; exact hx)
          have hv0f : ∀ x ∈ v0, x ∈ f := by
            intro x hx
            exact splitFirstD_snd_subset '=' f x (by rw [hsp]; exact hx)
          have hfq := splitAll_mem_subset '&' q f hf
          have hfamp := splitAll_no_sep '&' q f hf
          have hk0q : ∀ x ∈ k0, x ∈ q := fun x hx => hfq x (hk0f x hx)
          have hv0q : ∀ x ∈ v0, x ∈ q := fun x hx => hfq x (hv0f x hx)
          have hk0ne : '=' ∉ k0 := by
            rcases splitFirstD_spec '=' f with ⟨hnm, -⟩ | ⟨a, b, hab, hna, hsp2⟩
            · exact absurd hmeq hnm
            · rw [hsp] at hsp2
              cases hsp2
              exact hna
          have hdk : decodeQs k0 = k0 :=
            decodeQs_id k0 (fun hx => hp (hk0q '%' hx)) (fun hx => hl (hk0q '+' hx))
          have hdv : decodeQs v0 = v0 :=
            decodeQs_id v0 (fun hx => hp (hv0q '%' hx)) (fun hx => hl (hv0q '+' hx))
          rw [hkv', hdk, hdv]
          refine ⟨⟨fun hx => hfamp (hk0f '&' hx), hk0ne,
            fun hx => hp (hk0q '%' hx), fun hx => hl (hk0q '+' hx),
            hv0, fun hx => hfamp (hv0f '&' hx),
            fun hx => hp (hv0q '%' hx), fun hx => hl (hv0q '+' hx)⟩, hk0q, hv0q⟩
        · rw [if_neg hmeq] at hsome
          cases hsome

theorem joinAmp_chars (fs : List (List Char)) :
    ∀ c ∈ joinAmp fs, c = '&' ∨ ∃ f ∈ fs, c ∈ f := by
  induction fs with
  | nil => intro c hc; cases hc
  | cons x t ih =>
    intro c hc
    cases t with
    | nil =>
      right
      exact ⟨x, List.mem_cons_self x [], hc⟩
    | cons y t2 =>
      rw [show joinAmp (x :: y :: t2) = x ++ '&' :: joinAmp (y :: t2) from rfl] at hc
      rcases List.mem_append.mp hc with hc | hc
      · exact Or.inr ⟨x, List.mem_cons_self x _, hc⟩
      · rcases List.mem_cons.mp hc with hc | hc
        · exact Or.inl hc
        · rcases ih c hc with hc | ⟨f, hf, hcf⟩
          · exact Or.inl hc
          · exact Or.inr ⟨f, List.mem_cons_of_mem x hf, hcf⟩

theorem cleanQueryL_chars (q : List Char) (hp : '%' ∉ q) (hl : '+' ∉ q) :
    ∀ c ∈ cleanQueryL q, c = '&' ∨ c = '=' ∨ c ∈ q := by
  intro c hc
  rw [cleanQueryL_spec q] at hc
  unfold ampJoinFields at hc
  rcases joinAmp_chars _ c hc with hc | ⟨f, hf, hcf⟩
  · exact Or.inl hc
  · obtain ⟨kv, hkv, hkvf⟩ := List.mem_map.mp hf
    have hkvq : kv ∈ parseQsl q :=
      spec_mem_subset [] (parseQsl q) kv (List.mem_filter.mp hkv).1
    obtain ⟨-, hkq, hvq⟩ := parseQsl_good q hp hl kv hkvq
    rw [← hkvf] at hcf
    rcases List.mem_append.mp hcf with hcf | hcf
    · exact Or.inr (Or.inr (hkq c hcf))
    · rcases List.mem_cons.mp hcf with hcf | hcf
      · exact Or.inr (Or.inl hcf)
      · exact Or.inr (Or.inr (hvq c hcf))

theorem cleanQueryL_fix (q : List Char) (hp : '%' ∉ q) (hl : '+' ∉ q) :
    cleanQueryL (cleanQueryL q) = cleanQueryL q := by
  have hk := cleanQueryL_spec q
  have hgood : ∀ kv ∈ (specFirstOccurrence [] (parseQsl q)).filter
      (fun kv => ¬ ("utm_".toList).isPrefixOf kv.1), GoodField kv := by
    intro kv hkv
    exact (parseQsl_good q hp hl kv
      (spec_mem_subset [] (parseQsl q) kv (List.mem_filter.mp hkv).1)).1
  rw [hk]
  rw [cleanQueryL_spec (ampJoinFields ((specFirstOccurrence [] (parseQsl q)).filter
    (fun kv => ¬ ("utm_".toList).isPrefixOf kv.1)))]
  rw [parseQsl_ampJoin _ hgood]
  have hsub : (((specFirstOccurrence [] (parseQsl q)).filter
        (fun kv => ¬ ("utm_".toList).isPrefixOf kv.1)).map (fun kv => kv.1)).Sublist
      ((specFirstOccurrence [] (parseQsl q)).map (fun kv => kv.1)) :=
    List.Sublist.map (fun kv : List Char × List Char => kv.1)
      (List.filter_sublist (specFirstOccurrence [] (parseQsl q)))
  rw [spec_eq_self []
    ((specFirstOccurrence [] (parseQsl q)).filter
      (fun kv => ¬ ("utm_".toList).isPrefixOf kv.1))
    ((spec_keys_nodup [] (parseQsl q)).sublist hsub)
    (fun kv hkv hs => by cases hs)]
  rw [List.filter_eq_self.mpr (fun kv hkv => (List.mem_filter.mp hkv).2)]

theorem map_id_of (f : Char → Char) (l : List Char) (h : ∀ c ∈ l, f c = c) :
    l.map f = l :=
  (List.map_congr_left h).trans (List.map_id l)

theorem preprocessL_id (l : List Char)
    (hws : ∀ c ∈ l, isPyWs c = false) (hlow : asciiLower l = l)
    (hpre : ("http://".toList).isPrefixOf l = true ∨
      ("https://".toList).isPrefixOf l = true) :
    preprocessL l = l := by
  simp only [preprocessL]
  rw [pyStrip_id l hws, hlow]
  rw [if_pos hpre]

/-- inversion of a successful `_process_url`: the netloc passed the
    bracket checks, the port was absent or allowed, and the result is
    the reassembled URL -/
theorem processUrlL_ok_inv (raw w : List Char) (h : processUrlL raw = .ok w) :
    badBrackets (pyUrlparse (preprocessL raw)).netloc = false ∧
    bracketedHostOk (pyUrlparse (preprocessL raw)).netloc = true ∧
    (∃ op, pyPort (pyUrlparse (preprocessL raw)).netloc = .ok op ∧
      ∀ p, op = some p → p ∉ CONFIG.forbiddenPorts) ∧
    w = pyUrlunparse ⟨(pyUrlparse (preprocessL raw)).scheme,
      (pyUrlparse (preprocessL raw)).netloc,
      rstripSlash (pyUrlparse (preprocessL raw)).path,
      (pyUrlparse (preprocessL raw)).params,
      cleanQueryL (pyUrlparse (preprocessL raw)).query,
      (pyUrlparse (preprocessL raw)).fragment⟩ := by
  simp only [processUrlL] at h
  generalize pyUrlparse (preprocessL raw) = P at h ⊢
  by_cases hbb : (badBrackets P.netloc = true ∨ ¬ bracketedHostOk P.netloc = true)
  · rw [if_pos hbb] at h
    cases h
  · rw [if_neg hbb] at h
    have h1 : badBrackets P.netloc = false := by
      cases hb : badBrackets P.netloc with
      | false => rfl
      | true => exact absurd (Or.inl hb) hbb
    have h2 : bracketedHostOk P.netloc = true := by
      cases hb : bracketedHostOk P.netloc with
      | true => rfl
      | false => exact absurd (Or.inr (by rw [hb]; simp)) hbb
    rcases hport : pyPort P.netloc with pe | op
    · rw [hport] at h
      cases h
    · rw [hport] at h
      rcases op with _ | p
      · have h' : Except.ok (pyUrlunparse ⟨P.scheme, P.netloc,
            rstripSlash P.path, P.params, cleanQueryL P.query, P.fragment⟩) =
            (Except.ok w : Except NormErr (List Char)) := h
        refine ⟨h1, h2, ⟨none, rfl, by intro p hp; cases hp⟩, ?_⟩
        exact (Except.ok.inj h').symm
      · have h' : (if p ∈ CONFIG.forbiddenPorts then
              (Except.error NormErr.forbiddenPort : Except NormErr (List Char))
            else Except.ok (pyUrlunparse ⟨P.scheme, P.netloc,
              rstripSlash P.path, P.params, cleanQueryL P.query,
              P.fragment⟩)) = .ok w := h
        by_cases hfp : p ∈ CONFIG.forbiddenPorts
        · rw [if_pos hfp] at h'
          cases h'
        · rw [if_neg hfp] at h'
          refine ⟨h1, h2, ⟨some p, rfl, ?_⟩, (Except.ok.inj h').symm⟩
          intro p2 hp2
          cases hp2
          exact hfp

/-- the forward direction: under the same side conditions,
    `_process_url` succeeds with the reassembled URL -/
theorem processUrlL_ok_fwd (raw : List Char)
    (h1 : badBrackets (pyUrlparse (preprocessL raw)).netloc = false)
    (h2 : bracketedHostOk (pyUrlparse (preprocessL raw)).netloc = true)
    (op : Option Nat) (h3 : pyPort (pyUrlparse (preprocessL raw)).netloc = .ok op)
    (h4 : ∀ p, op = some p → p ∉ CONFIG.forbiddenPorts) :
    processUrlL raw = .ok (pyUrlunparse ⟨(pyUrlparse (preprocessL raw)).scheme,
      (pyUrlparse (preprocessL raw)).netloc,
      rstripSlash (pyUrlparse (preprocessL raw)).path,
      (pyUrlparse (preprocessL raw)).params,
      cleanQueryL (pyUrlparse (preprocessL raw)).query,
      (pyUrlparse (preprocessL raw)).fragment⟩) := by
  simp only [processUrlL]
  rw [if_neg (by rw [h1, h2]; simp)]
  rw [h3]
  rcases op with _ | p
  · rfl
  · show (if p ∈ CONFIG.forbiddenPorts then
        (Except.error NormErr.forbiddenPort : Except NormErr (List Char))
      else .ok _) = _
    rw [if_neg (h4 p rfl)]

theorem mem_of_takeWhile (p : Char → Bool) (l : List Char) :
    ∀ c ∈ l.takeWhile p, c ∈ l := by
  intro c hc
  rw [← List.takeWhile_append_dropWhile p l]
  exact List.mem_append_left _ hc

theorem mem_of_dropWhile (p : Char → Bool) (l : List Char) :
    ∀ c ∈ l.dropWhile p, c ∈ l := by
  intro c hc
  rw [← List.takeWhile_append_dropWhile p l]
  exact List.mem_append_right _ hc

theorem takeWhile_pred (p : Char → Bool) (l : List Char) :
    ∀ c ∈ l.takeWhile p, p c = true := by
  induction l with
  | nil => intro c hc; cases hc
  | cons x xs ih =>
    intro c hc
    by_cases hx : p x = true
    · rw [List.takeWhile_cons_of_pos hx] at hc
      rcases List.mem_cons.mp hc with hc | hc
      · rw [hc]; exact hx
      · exact ih c hc
    · rw [List.takeWhile_cons_of_neg hx] at hc
      cases hc

theorem splitFirstD_fst_clean (c : Char) (s : List Char) :
    c ∉ (splitFirstD c s).1 ∧ (splitFirstD c s).1 <+: s := by
  rcases splitFirstD_spec c s with ⟨hnm, hsp⟩ | ⟨a, b, hab, hna, hsp⟩
  · rw [hsp]
    exact ⟨hnm, List.prefix_refl s⟩
  · rw [hsp]
    exact ⟨hna, by rw [hab]; exact ⟨c :: b, rfl⟩⟩

theorem optPart_nil (d : Char) : optPart d [] = [] := rfl

theorem optPart_ne (d : Char) (l : List Char) (h : l ≠ []) :
    optPart d l = d :: l := by
  unfold optPart
  rw [if_neg h]

theorem optPart_mem (d : Char) (l : List Char) :
    ∀ c ∈ optPart d l, c = d ∨ c ∈ l := by
  intro c hc
  by_cases hl : l = []
  · rw [hl, optPart_nil] at hc
    cases hc
  · rw [optPart_ne d l hl] at hc
    rcases List.mem_cons.mp hc with hc | hc
    · exact Or.inl hc
    · exact Or.inr hc

/-- strings of the shape `_process_url` outputs are fixpoints of its
    preprocessing (strip, lowercase, ensure-scheme) -/
theorem preprocessL_preUrl_id (sch X : List Char)
    (hs : sch = "http".toList ∨ sch = "https".toList)
    (hc0 : ∀ c ∈ X, isC0OrSpace c = false)
    (hfix : ∀ c ∈ X, asciiLowerChar c = c) :
    preprocessL (preUrl sch X) = preUrl sch X := by
  have hws : ∀ c ∈ preUrl sch X, isPyWs c = false := by
    intro c hc
    apply isPyWs_of_c0
    have hc2 : c ∈ sch ++ ':' :: '/' :: '/' :: X := hc
    rcases List.mem_append.mp hc2 with hc3 | hc3
    · have hall : ∀ c ∈ sch, isC0OrSpace c = false := by
        rcases hs with h | h <;> rw [h] <;> decide
      exact hall c hc3
    · rcases List.mem_cons.mp hc3 with hc4 | hc4
      · rw [hc4]; decide
      · rcases List.mem_cons.mp hc4 with hc5 | hc5
        · rw [hc5]; decide
        · rcases List.mem_cons.mp hc5 with hc6 | hc6
          · rw [hc6]; decide
          · exact hc0 c hc6
  have hlow : asciiLower (preUrl sch X) = preUrl sch X := by
    have h1 : List.map asciiLowerChar sch = sch := by
      rcases hs with h | h <;> rw [h] <;> decide
    have h2 : List.map asciiLowerChar X = X := map_id_of asciiLowerChar X hfix
    show List.map asciiLowerChar (sch ++ ':' :: '/' :: '/' :: X) =
      sch ++ ':' :: '/' :: '/' :: X
    rw [List.map_append, h1, List.map_cons, List.map_cons, List.map_cons, h2]
    rfl
  have hpu : ("http://".toList).isPrefixOf (preUrl sch X) = true ∨
      ("https://".toList).isPrefixOf (preUrl sch X) = true := by
    rcases hs with h | h
    · left
      rw [h]
      exact List.isPrefixOf_iff_prefix.mpr ⟨X, http_preUrl X⟩
    · right
      rw [h]
      exact List.isPrefixOf_iff_prefix.mpr ⟨X, https_preUrl X⟩
  exact preprocessL_id (preUrl sch X) hws hlow hpu

/-- reparsing a URL reassembled from clean components recovers exactly
    those components -/
theorem pyUrlparse_rebuild (sch N path q frag : List Char)
    (hs : sch = "http".toList ∨ sch = "https".toList)
    (hc0 : ∀ c ∈ N ++ (path ++ (optPart '?' q ++ optPart '#' frag)),
      isC0OrSpace c = false)
    (hN : ∀ c ∈ N, isNetStop c = false)
    (hph : path = [] ∨ path.head? = some '/')
    (hpqm : '?' ∉ path) (hphash : '#' ∉ path) (hpsemi : ';' ∉ path)
    (hqhash : '#' ∉ q) :
    pyUrlparse (preUrl sch (N ++ (path ++ (optPart '?' q ++ optPart '#' frag)))) =
      ⟨sch, N, path, [], q, frag⟩ := by
  have hd := pyUrlparse_decomp sch
    (N ++ (path ++ (optPart '?' q ++ optPart '#' frag))) hs hc0
  have hNp : ∀ c ∈ N, decide (¬ (isNetStop c = true)) = true := by
    intro c hc
    rw [hN c hc]
    decide
  have hhead : (path ++ (optPart '?' q ++ optPart '#' frag)) = [] ∨
      ∃ c r, (path ++ (optPart '?' q ++ optPart '#' frag)) = c :: r ∧
        decide (¬ (isNetStop c = true)) = false := by
    rcases hph with hpe | hph2
    · rw [hpe, List.nil_append]
      by_cases hqe : q = []
      · rw [hqe, optPart_nil, List.nil_append]
        by_cases hfe : frag = []
        · rw [hfe, optPart_nil]
          exact Or.inl rfl
        · rw [optPart_ne '#' frag hfe]
          exact Or.inr ⟨'#', frag, rfl, by decide⟩
      · rw [optPart_ne '?' q hqe]
        exact Or.inr ⟨'?', q ++ optPart '#' frag, rfl, by decide⟩
    · cases path with
      | nil => cases hph2
      | cons x r =>
        have hx : x = '/' := by
          have h2 : some x = some '/' := hph2
          exact Option.some.inj h2
        rw [hx]
        exact Or.inr ⟨'/', r ++ (optPart '?' q ++ optPart '#' frag), rfl, by decide⟩
  have hnil := takeWhile_eq_nil_of_head (fun c => ¬ isNetStop c)
    (path ++ (optPart '?' q ++ optPart '#' frag)) hhead
  have hTW : (N ++ (path ++ (optPart '?' q ++ optPart '#' frag))).takeWhile
      (fun c => ¬ isNetStop c) = N := by
    rw [takeWhile_append_all (fun c => ¬ isNetStop c) N _ hNp, hnil.1, List.append_nil]
  have hDW : (N ++ (path ++ (optPart '?' q ++ optPart '#' frag))).dropWhile
      (fun c => ¬ isNetStop c) = path ++ (optPart '?' q ++ optPart '#' frag) := by
    rw [dropWhile_append_all (fun c => ¬ isNetStop c) N _ hNp, hnil.2]
  have hhashA : '#' ∉ path ++ optPart '?' q := by
    intro hc
    rcases List.mem_append.mp hc with hc | hc
    · exact hphash hc
    · rcases optPart_mem '?' q '#' hc with hc | hc
      · exact absurd hc (by decide)
      · exact hqhash hc
  have hsplitHash : splitFirstD '#' (path ++ (optPart '?' q ++ optPart '#' frag)) =
      (path ++ optPart '?' q, frag) := by
    by_cases hfe : frag = []
    · rw [hfe, optPart_nil, List.append_nil]
      exact splitFirstD_not_mem '#' _ hhashA
    · rw [optPart_ne '#' frag hfe, ← List.append_assoc]
      exact splitFirstD_append '#' (path ++ optPart '?' q) frag hhashA
  have hsplitQm : splitFirstD '?' (path ++ optPart '?' q) = (path, q) := by
    by_cases hqe : q = []
    · rw [hqe, optPart_nil, List.append_nil]
      exact splitFirstD_not_mem '?' path hpqm
    · rw [optPart_ne '?' q hqe]
      exact splitFirstD_append '?' path q hpqm
  have hsp : splitParams path = (path, []) := by
    unfold splitParams
    rw [if_neg hpsemi]
  have e1 : splitFirstD '?' ((path ++ optPart '?' q, frag) :
      List Char × List Char).1 = (path, q) := hsplitQm
  have e2 : splitParams ((path, q) : List Char × List Char).1 = (path, []) := hsp
  rw [hd, hTW, hDW, hsplitHash, e1, e2]

/-- the parse of a preprocessed URL, packaged with the cleanliness facts
    used by the idempotence argument: control-free components, no params
    when `;` is absent, and a path that is empty or starts with `/` -/
theorem pyUrlparse_preprocess_decomp (raw : List Char)
    (hc0 : ∀ c ∈ preprocessL raw, isC0OrSpace c = false)
    (hsemi : ';' ∉ preprocessL raw) :
    ∃ sch N PQ Q F,
      (sch = "http".toList ∨ sch = "https".toList) ∧
      pyUrlparse (preprocessL raw) = ⟨sch, N, PQ, [], Q, F⟩ ∧
      (∀ c ∈ N, isC0OrSpace c = false ∧ asciiLowerChar c = c ∧ isNetStop c = false) ∧
      (∀ c ∈ PQ, isC0OrSpace c = false ∧ asciiLowerChar c = c) ∧
      (∀ c ∈ Q, isC0OrSpace c = false ∧ asciiLowerChar c = c) ∧
      (∀ c ∈ F, isC0OrSpace c = false ∧ asciiLowerChar c = c) ∧
      (PQ = [] ∨ PQ.head? = some '/') ∧
      '?' ∉ PQ ∧ '#' ∉ PQ ∧ ';' ∉ PQ ∧ '#' ∉ Q := by
  have hfixall : ∀ c ∈ preprocessL raw, asciiLowerChar c = c := by
    have h := preprocessL_lower raw
    unfold asciiLower at h
    exact map_fix_mem h
  obtain ⟨sch, t, hs, hpre⟩ :
      ∃ sch t, (sch = "http".toList ∨ sch = "https".toList) ∧
        preprocessL raw = preUrl sch t := by
    rcases preprocessL_prefix raw with h | h
    · obtain ⟨t, ht⟩ := List.isPrefixOf_iff_prefix.mp h
      exact ⟨"http".toList, t, Or.inl rfl, (ht.symm).trans (http_preUrl t)⟩
    · obtain ⟨t, ht⟩ := List.isPrefixOf_iff_prefix.mp h
      exact ⟨"https".toList, t, Or.inr rfl, (ht.symm).trans (https_preUrl t)⟩
  have htc0 : ∀ c ∈ t, isC0OrSpace c = false := by
    intro c hc
    apply hc0
    rw [hpre]
    show c ∈ sch ++ ':' :: '/' :: '/' :: t
    exact List.mem_append.mpr (Or.inr (List.mem_cons_of_mem _
      (List.mem_cons_of_mem _ (List.mem_cons_of_mem _ hc))))
  have htfix : ∀ c ∈ t, asciiLowerChar c = c := by
    intro c hc
    apply hfixall
    rw [hpre]
    show c ∈ sch ++ ':' :: '/' :: '/' :: t
    exact List.mem_append.mpr (Or.inr (List.mem_cons_of_mem _
      (List.mem_cons_of_mem _ (List.mem_cons_of_mem _ hc))))
  have htsemi : ';' ∉ t := by
    intro hc
    apply hsemi
    rw [hpre]
    show ';' ∈ sch ++ ':' :: '/' :: '/' :: t
    exact List.mem_append.mpr (Or.inr (List.mem_cons_of_mem _
      (List.mem_cons_of_mem _ (List.mem_cons_of_mem _ hc))))
  obtain ⟨N, hNdef⟩ : ∃ N, t.takeWhile (fun c => ¬ isNetStop c) = N := ⟨_, rfl⟩
  obtain ⟨R, hRdef⟩ : ∃ R, t.dropWhile (fun c => ¬ isNetStop c) = R := ⟨_, rfl⟩
  obtain ⟨B, F, hBF⟩ : ∃ B F, splitFirstD '#' R = (B, F) := ⟨_, _, rfl⟩
  obtain ⟨PQ, Q, hPQQ⟩ : ∃ PQ Q, splitFirstD '?' B = (PQ, Q) := ⟨_, _, rfl⟩
  have hNt : ∀ c ∈ N, c ∈ t := by
    intro c hc
    rw [← hNdef] at hc
    exact mem_of_takeWhile _ t c hc
  have hRt : ∀ c ∈ R, c ∈ t := by
    intro c hc
    rw [← hRdef] at hc
    exact mem_of_dropWhile _ t c hc
  have hBR : ∀ c ∈ B, c ∈ R := by
    intro c hc
    exact splitFirstD_fst_subset '#' R c (by rw [hBF]; exact hc)
  have hFR : ∀ c ∈ F, c ∈ R := by
    intro c hc
    exact splitFirstD_snd_subset '#' R c (by rw [hBF]; exact hc)
  have hPQB : ∀ c ∈ PQ, c ∈ B := by
    intro c hc
    exact splitFirstD_fst_subset '?' B c (by rw [hPQQ]; exact hc)
  have hQB : ∀ c ∈ Q, c ∈ B := by
    intro c hc
    exact splitFirstD_snd_subset '?' B c (by rw [hPQQ]; exact hc)
  have hBhash : '#' ∉ B ∧ B <+: R := by
    have h := splitFirstD_fst_clean '#' R
    rw [hBF] at h
    exact h
  have hPQqm : '?' ∉ PQ ∧ PQ <+: B := by
    have h := splitFirstD_fst_clean '?' B
    rw [hPQQ] at h
    exact h
  have hPQhash : '#' ∉ PQ := fun hc => hBhash.1 (hPQB _ hc)
  have hQhash : '#' ∉ Q := fun hc => hBhash.1 (hQB _ hc)
  have hPQsemi : ';' ∉ PQ := fun hc => htsemi (hRt _ (hBR _ (hPQB _ hc)))
  have hRhead : ∀ c, R.head? = some c → isNetStop c = true := by
    intro c hc
    have h2 : (t.dropWhile (fun c => ¬ isNetStop c)).head? = some c := by
      rw [hRdef]
      exact hc
    have h3 := head?_dropWhile_ne (fun c => ¬ isNetStop c) t c h2
    have h4 : decide (¬ (isNetStop c = true)) = false := h3
    cases hb : isNetStop c
    · rw [hb] at h4
      exact absurd h4 (by decide)
    · rfl
  have hPQhead : PQ = [] ∨ PQ.head? = some '/' := by
    by_cases hq : PQ = []
    · exact Or.inl hq
    · right
      obtain ⟨x, r, hxr⟩ := List.exists_cons_of_ne_nil hq
      have hpr : PQ <+: R := hPQqm.2.trans hBhash.2
      rcases prefix_head PQ R hpr with he | hh
      · exact absurd he hq
      · have hx : R.head? = some x := by
          rw [← hh, hxr]
          rfl
        have hstop := hRhead x hx
        have hdisj : x = '/' ∨ x = '?' ∨ x = '#' := of_decide_eq_true hstop
        rcases hdisj with h | h | h
        · rw [hxr, h]
          rfl
        · exact absurd (by rw [hxr, h]; exact List.mem_cons_self _ _) hPQqm.1
        · exact absurd (by rw [hxr, h]; exact List.mem_cons_self _ _) hPQhash
  have hNfact : ∀ c ∈ N, isC0OrSpace c = false ∧ asciiLowerChar c = c ∧
      isNetStop c = false := by
    intro c hc
    refine ⟨htc0 c (hNt c hc), htfix c (hNt c hc), ?_⟩
    have hc2 : c ∈ t.takeWhile (fun c => ¬ isNetStop c) := by
      rw [hNdef]
      exact hc
    have h3 := takeWhile_pred (fun c => ¬ isNetStop c) t c hc2
    have h4 : decide (¬ (isNetStop c = true)) = true := h3
    cases hb : isNetStop c
    · rfl
    · rw [hb] at h4
      exact absurd h4 (by decide)
  have hPQfact : ∀ c ∈ PQ, isC0OrSpace c = false ∧ asciiLowerChar c = c := by
    intro c hc
    have hct : c ∈ t := hRt c (hBR c (hPQB c hc))
    exact ⟨htc0 c hct, htfix c hct⟩
  have hQfact : ∀ c ∈ Q, isC0OrSpace c = false ∧ asciiLowerChar c = c := by
    intro c hc
    have hct : c ∈ t := hRt c (hBR c (hQB c hc))
    exact ⟨htc0 c hct, htfix c hct⟩
  have hFfact : ∀ c ∈ F, isC0OrSpace c = false ∧ asciiLowerChar c = c := by
    intro c hc
    have hct : c ∈ t := hRt c (hFR c hc)
    exact ⟨htc0 c hct, htfix c hct⟩
  have hsp : splitParams PQ = (PQ, []) := by
    unfold splitParams
    rw [if_neg hPQsemi]
  have hPmain : pyUrlparse (preprocessL raw) = ⟨sch, N, PQ, [], Q, F⟩ := by
    have hdec := pyUrlparse_decomp sch t hs htc0
    rw [hpre, hdec, hNdef, hRdef, hBF]
    have e1 : splitFirstD '?' ((B, F) : List Char × List Char).1 = (PQ, Q) := hPQQ
    have e2 : splitParams ((PQ, Q) : List Char × List Char).1 = (PQ, []) := hsp
    rw [e1, e2]
  exact ⟨sch, N, PQ, Q, F, hs, hPmain, hNfact, hPQfact, hQfact, hFfact, hPQhead,
    hPQqm.1, hPQhash, hPQsemi, hQhash⟩

/-- **C9** (corrected).  Idempotence of `_process_url` on its success
    outputs, under the provisos forced by the counterexamples: the
    preprocessed input carries no control/space character and no `;`
    (so no path params arise), it parses to a nonempty netloc, and its
    query holds no percent-escape and no `+` (so `parse_qs` decodes
    nothing).  Then normalizing the normalized URL returns it
    unchanged. -/
theorem c9_amended_idem (u v : String)
    (h : processUrl u = .ok v)
    (hc0 : ∀ c ∈ preprocessL u.data, isC0OrSpace c = false)
    (hsemi : ';' ∉ preprocessL u.data)
    (hnet : (pyUrlparse (preprocessL u.data)).netloc ≠ [])
    (hpq : '%' ∉ (pyUrlparse (preprocessL u.data)).query)
    (hlq : '+' ∉ (pyUrlparse (preprocessL u.data)).query) :
    processUrl v = .ok v := by
  rcases hw : processUrlL u.data with e | w
  · exfalso
    simp only [processUrl] at h
    rw [hw] at h
    have h2 : (Except.error e : Except NormErr String) = .ok v := h
    cases h2
  · simp only [processUrl] at h
    rw [hw] at h
    have h2 : (Except.ok (String.mk w) : Except NormErr String) = .ok v := h
    have hv : String.mk w = v := Except.ok.inj h2
    obtain ⟨h1, hbr, ⟨op, hop, hopf⟩, hwE⟩ := processUrlL_ok_inv u.data w hw
    obtain ⟨sch, N, PQ, Q, F, hs, hP, hNfact, hPQfact, hQfact, hFfact, hPQhead,
      hPQqm, hPQhash, hPQsemi, hQhash⟩ :=
      pyUrlparse_preprocess_decomp u.data hc0 hsemi
    rw [hP] at h1 hbr hop hwE hnet hpq hlq
    have h1n : badBrackets N = false := h1
    have hbrn : bracketedHostOk N = true := hbr
    have hopn : pyPort N = .ok op := hop
    have hnetn : N ≠ [] := hnet
    have hpqn : '%' ∉ Q := hpq
    have hlqn : '+' ∉ Q := hlq
    have hwn : w = pyUrlunparse ⟨sch, N, rstripSlash PQ, [], cleanQueryL Q, F⟩ := hwE
    have hsch : sch ≠ [] := by
      rcases hs with hh | hh <;> rw [hh] <;> decide
    have hPQsub : ∀ c ∈ rstripSlash PQ, c ∈ PQ := by
      intro c hc
      exact (( rstripSlash_prefix PQ).sublist).subset hc
    have hpath : ∀ c ∈ rstripSlash PQ, isC0OrSpace c = false ∧ asciiLowerChar c = c :=
      fun c hc => hPQfact c (hPQsub c hc)
    have hqc : ∀ c ∈ cleanQueryL Q, isC0OrSpace c = false ∧ asciiLowerChar c = c := by
      intro c hc
      rcases cleanQueryL_chars Q hpqn hlqn c hc with hc2 | hc2 | hc2
      · rw [hc2]
        exact ⟨by decide, by decide⟩
      · rw [hc2]
        exact ⟨by decide, by decide⟩
      · exact hQfact c hc2
    have hpathHead : rstripSlash PQ = [] ∨ (rstripSlash PQ).head? = some '/' := by
      rcases hPQhead with he | hh
      · left
        rw [he]
        rfl
      · rcases prefix_head (rstripSlash PQ) PQ ( rstripSlash_prefix PQ) with he | hh2
        · exact Or.inl he
        · exact Or.inr (hh2.trans hh)
    have hpQm : '?' ∉ rstripSlash PQ := fun hc => hPQqm (hPQsub _ hc)
    have hpHash : '#' ∉ rstripSlash PQ := fun hc => hPQhash (hPQsub _ hc)
    have hpSemi : ';' ∉ rstripSlash PQ := fun hc => hPQsemi (hPQsub _ hc)
    have hqHash : '#' ∉ cleanQueryL Q := by
      intro hc
      rcases cleanQueryL_chars Q hpqn hlqn '#' hc with hc2 | hc2 | hc2
      · exact absurd hc2 (by decide)
      · exact absurd hc2 (by decide)
      · exact hQhash hc2
    have hXfact : ∀ c ∈ N ++ (rstripSlash PQ ++ (optPart '?' (cleanQueryL Q) ++
        optPart '#' F)), isC0OrSpace c = false ∧ asciiLowerChar c = c := by
      intro c hc
      rcases List.mem_append.mp hc with hc | hc
      · exact ⟨(hNfact c hc).1, (hNfact c hc).2.1⟩
      · rcases List.mem_append.mp hc with hc | hc
        · exact hpath c hc
        · rcases List.mem_append.mp hc with hc | hc
          · rcases optPart_mem '?' (cleanQueryL Q) c hc with hc2 | hc2
            · rw [hc2]
              exact ⟨by decide, by decide⟩
            · exact hqc c hc2
          · rcases optPart_mem '#' F c hc with hc2 | hc2
            · rw [hc2]
              exact ⟨by decide, by decide⟩
            · exact hFfact c hc2
    have hbu : buildUrl sch N (rstripSlash PQ) (cleanQueryL Q) F =
        preUrl sch (N ++ (rstripSlash PQ ++ (optPart '?' (cleanQueryL Q) ++
          optPart '#' F))) := rfl
    have hw2 : w = preUrl sch (N ++ (rstripSlash PQ ++ (optPart '?' (cleanQueryL Q) ++
        optPart '#' F))) :=
      hwn.trans ((pyUrlunparse_shape sch N (rstripSlash PQ) (cleanQueryL Q) F
        hsch hnetn hpathHead).trans hbu)
    have hpw : preprocessL w = w := by
      rw [hw2]
      exact preprocessL_preUrl_id sch _ hs (fun c hc => (hXfact c hc).1)
        (fun c hc => (hXfact c hc).2)
    have hreparse : pyUrlparse w = ⟨sch, N, rstripSlash PQ, [], cleanQueryL Q, F⟩ := by
      rw [hw2]
      exact pyUrlparse_rebuild sch N (rstripSlash PQ) (cleanQueryL Q) F hs
        (fun c hc => (hXfact c hc).1) (fun c hc => (hNfact c hc).2.2)
        hpathHead hpQm hpHash hpSemi hqHash
    have h1w : badBrackets (pyUrlparse (preprocessL w)).netloc = false := by
      rw [hpw, hreparse]
      exact h1n
    have h2w : bracketedHostOk (pyUrlparse (preprocessL w)).netloc = true := by
      rw [hpw, hreparse]
      exact hbrn
    have hopw : pyPort (pyUrlparse (preprocessL w)).netloc = .ok op := by
      rw [hpw, hreparse]
      exact hopn
    have hfwd := processUrlL_ok_fwd w h1w h2w op hopw hopf
    rw [hpw, hreparse] at hfwd
    have hfwd2 : processUrlL w = .ok (pyUrlunparse ⟨sch, N,
        rstripSlash (rstripSlash PQ), [], cleanQueryL (cleanQueryL Q), F⟩) := hfwd
    have hfinal : processUrlL w = .ok w := by
      rw [hfwd2, rstripSlash_idem PQ, cleanQueryL_fix Q hpqn hlqn, ← hwn]
    rw [← hv]
    show Except.map String.mk (processUrlL w) = Except.ok (String.mk w)
    rw [hfinal]
    rfl

/-- witness for `c9_amended_idem` at a concrete success of `processUrl` -/
theorem c9_witness :
    processUrl "http://example.com/a/?utm_x=1&b=2#frag" =
        .ok "http://example.com/a?b=2#frag" ∧
      processUrl "http://example.com/a?b=2#frag" =
        .ok "http://example.com/a?b=2#frag" :=
  ⟨by decide,
   c9_amended_idem "http://example.com/a/?utm_x=1&b=2#frag"
     "http://example.com/a?b=2#frag" (by decide) (by decide) (by decide)
     (by decide) (by decide) (by decide)⟩

end IdxScan
